import Mathlib

/-!
Verification of the MBA_data_analysis repository: a shallow embedding of the
DataEncoder pipeline (app/app_encoder/encoder.py), the encoding configuration
manager (app/app_encoder/encoder_manager.py), the workspace file manager
(app/app_file_mgt/file_workspace_mgt.py) and the bootstrap resampler
(app/ops_bootstrap.py), together with theorems settling the frozen claims.
All definitions are translated from the `main` side of the merge-conflicted
sources, which is the revision the claims reference.
-/

/-! ## Generic association-list utilities (Python dict semantics) -/

/-- Lookup in an association list, first match wins (Python dict access). -/
def alistGet [DecidableEq κ] : List (κ × α) → κ → Option α
  | [], _ => none
  | p :: rest, k => if p.1 = k then some p.2 else alistGet rest k

/-- Insert into an association list with Python dict semantics: if the key is
present its value is replaced in place (first occurrence; a dict has unique
keys), otherwise the pair is appended. -/
def dictInsert [DecidableEq κ] : List (κ × α) → κ → α → List (κ × α)
  | [], k, v => [(k, v)]
  | q :: rest, k, v =>
    if q.1 = k then (k, v) :: rest else q :: dictInsert rest k v

/-- Rebuild an association list left to right with Python dict insertion:
first occurrence keeps its position, the last value for a key wins. -/
def dictBuild [DecidableEq κ] (l : List (κ × α)) : List (κ × α) :=
  l.foldl (fun m p => dictInsert m p.1 p.2) []

/-- Keys of an association list. -/
def alistKeys (m : List (κ × α)) : List κ := m.map Prod.fst

/-- Deduplication keeping first occurrences (pandas `Series.unique`),
accumulating the already-seen elements. -/
def dedupAux [DecidableEq α] : List α → List α → List α
  | [], _ => []
  | a :: rest, seen =>
    if a ∈ seen then dedupAux rest seen else a :: dedupAux rest (a :: seen)

/-- Deduplication keeping first occurrences. -/
def dedupF [DecidableEq α] (l : List α) : List α := dedupAux l []

/-- Insert into a sorted list according to a boolean comparison. -/
def insertSorted (le : α → α → Bool) (a : α) : List α → List α
  | [] => [a]
  | b :: rest => if le a b then a :: b :: rest else b :: insertSorted le a rest

/-- Insertion sort according to a boolean comparison (models Python `sorted`). -/
def insSort (le : α → α → Bool) : List α → List α
  | [] => []
  | a :: rest => insertSorted le a (insSort le rest)

/-- Code-point lexicographic comparison of character lists (Python `str` order). -/
def charListLe : List Char → List Char → Bool
  | [], _ => true
  | _ :: _, [] => false
  | a :: as, b :: bs => if a = b then charListLe as bs else decide (a < b)

/-- Code-point lexicographic order on strings, as Python compares strings. -/
def strLeB (a b : String) : Bool := charListLe a.toList b.toList

/-! ## Text normalization (`DataEncoder._normalize_text`) -/

/-- The whitespace characters recognized by the Python regex `\s` (ASCII part). -/
def isWsChar (c : Char) : Bool :=
  c = ' ' || c = '\t' || c = '\n' || c = '\r' || c = '\x0b' || c = '\x0c'

/-- Split a character list into maximal runs of non-whitespace characters. -/
def splitWsAux : List Char → List Char → List (List Char)
  | [], acc => if acc.isEmpty then [] else [acc.reverse]
  | c :: rest, acc =>
    if isWsChar c then
      if acc.isEmpty then splitWsAux rest [] else acc.reverse :: splitWsAux rest []
    else splitWsAux rest (c :: acc)

/-- Split on whitespace runs, as Python `str.split()` with no argument. -/
def splitWs (l : List Char) : List (List Char) := splitWsAux l []

/-- `DataEncoder._normalize_text`: collapse whitespace runs to single spaces,
strip the ends and lowercase (`re.sub` followed by `strip` and `lower`). -/
def normalizeText (s : String) : String :=
  String.intercalate " "
    ((splitWs s.toList).map fun w => String.mk (w.map Char.toLower))

/-! ## Basic lemmas for the generic utilities -/

theorem alistGet_map_replace_ne [DecidableEq κ] (m : List (κ × α)) (k k₀ : κ) (v : α)
    (h : k₀ ≠ k) :
    alistGet (m.map fun p => if p.1 = k then (k, v) else p) k₀ = alistGet m k₀ := by
  induction m with
  | nil => rfl
  | cons p rest ih =>
    obtain ⟨pk, pv⟩ := p
    by_cases hp : pk = k
    · simp [alistGet, hp, h.symm, ih]
    · by_cases hpk : pk = k₀
      · simp [alistGet, hp, hpk, h]
      · simp [alistGet, hp, hpk, ih]

theorem alistGet_append_single_ne [DecidableEq κ] (m : List (κ × α)) (k k₀ : κ) (v : α)
    (h : k₀ ≠ k) : alistGet (m ++ [(k, v)]) k₀ = alistGet m k₀ := by
  induction m with
  | nil => simp [alistGet, h.symm]
  | cons p rest ih =>
    obtain ⟨pk, pv⟩ := p
    by_cases hpk : pk = k₀
    · simp [alistGet, hpk]
    · simp [alistGet, hpk, ih]

theorem alistGet_dictInsert_ne [DecidableEq κ] (m : List (κ × α)) (k k₀ : κ) (v : α)
    (h : k₀ ≠ k) : alistGet (dictInsert m k v) k₀ = alistGet m k₀ := by
  induction m with
  | nil => simp [dictInsert, alistGet, h.symm]
  | cons q rest ih =>
    obtain ⟨qk, qv⟩ := q
    by_cases hq : qk = k
    · subst hq
      simp [dictInsert, alistGet, h.symm, fun hc => h.symm hc]
    · simp [dictInsert, alistGet, hq, ih]

theorem mem_dedupAux [DecidableEq α] (l seen : List α) (x : α) :
    x ∈ dedupAux l seen ↔ x ∈ l ∧ x ∉ seen := by
  induction l generalizing seen with
  | nil => simp [dedupAux]
  | cons a rest ih =>
    by_cases ha : a ∈ seen <;> by_cases hxa : x = a
    · subst hxa; simp [dedupAux, if_pos ha, ih, ha]
    · simp [dedupAux, if_pos ha, ih, hxa]
    · subst hxa; simp [dedupAux, if_neg ha, ih, ha]
    · simp [dedupAux, if_neg ha, ih, hxa]

theorem mem_dedupF [DecidableEq α] (l : List α) (x : α) :
    x ∈ dedupF l ↔ x ∈ l := by
  rw [dedupF, mem_dedupAux]
  simp

/-! ## DataEncoder (app/app_encoder/encoder.py, `main` revision) -/

namespace Encoder

/-- A dataframe cell: missing (NaN), a raw string, or a numeric code produced
by encoding. -/
inductive Cell
  | na
  | strv (s : String)
  | natv (n : Nat)
deriving DecidableEq, Repr

/-- Python `str()` of a cell; `str(float nan)` is the string nan. -/
def cellStr : Cell → String
  | .na => "nan"
  | .strv s => s
  | .natv n => toString n

/-- Normalized text of a cell, as `_normalize_text` receives every cell
through `str()`. -/
def normCellStr (c : Cell) : String := normalizeText (cellStr c)

/-- A dataframe, column-oriented: ordered list of column name and cells. -/
abbrev EDf := List (String × List Cell)

/-- `col_key in self.df.columns`. -/
def hasColumn (df : EDf) (k : String) : Bool :=
  df.any fun p => decide (p.1 = k)

/-- `self.df[col_key]`. -/
def getCol (df : EDf) (k : String) : Option (List Cell) := alistGet df k

/-- `self.df[col_key] = cells` (column names are unique in a loaded frame;
every entry with this name is replaced). -/
def setCol (df : EDf) (k : String) (cells : List Cell) : EDf :=
  df.map fun p => if p.1 = k then (k, cells) else p

/-- `self.df.drop(columns=[k])`. -/
def dropCol (df : EDf) (k : String) : EDf :=
  df.filter fun p => decide (p.1 ≠ k)

/-- One codebook entry (`self.codebook[col_key]` with its three fields). -/
structure CodebookEntry where
  questionText : String
  encoderType : String
  valueMap : List (Nat × String)
deriving DecidableEq, Repr

/-- One element of `self.warnings`. -/
structure Warning where
  columnKey : String
  unmappedValues : List String
deriving DecidableEq, Repr

/-- The configuration dictionary built by
`EncodingConfigManager.generate_encoder_class_config`: one bucket per
prototype type plus the column map. A Likert entry carries its `map`
(the empty list models a missing or invalid map object), an Ordinal entry
its `order` list, a NominalMulti entry its `categories`. -/
structure EncoderConfig where
  likert : List (String × List (String × Nat))
  ordinal : List (String × List String)
  binary : List String
  nominal : List String
  nominalMulti : List (String × List String)
  columnMap : List (String × String)

/-- The encoder state: dataframe, codebook, warnings and learned value maps. -/
structure EncState where
  df : EDf
  codebook : List (String × CodebookEntry)
  warnings : List Warning
  learned : List (String × List (Nat × String))

/-- `DataEncoder._perform_smart_mapping`. -/
def performSmartMapping (st : EncState) (colKey : String)
    (definitionMap : List (String × Nat)) (encoderType : String)
    (columnMap : List (String × String)) : EncState :=
  if hasColumn st.df colKey = false then st
  else
    let col := (getCol st.df colKey).getD []
    let normalizedDefMap := dictBuild (definitionMap.map fun p => (normalizeText p.1, p.2))
    let nonNa := col.filter fun c => decide (c ≠ Cell.na)
    let dataSeries := nonNa.map normCellStr
    let uniqueDataValues := dedupF dataSeries
    let unmappedNormalizedValues :=
      uniqueDataValues.filter fun s => (alistGet normalizedDefMap s).isNone
    let warnings :=
      if unmappedNormalizedValues.isEmpty then st.warnings
      else
        let originalUnmapped :=
          ((dedupF nonNa).filter fun c =>
            unmappedNormalizedValues.contains (normCellStr c)).map cellStr
        st.warnings ++ [⟨colKey, insSort strLeB originalUnmapped⟩]
    let newCol := col.map fun c =>
      match alistGet normalizedDefMap (normCellStr c) with
      | some v => Cell.natv v
      | none => Cell.na
    let entry : CodebookEntry :=
      { questionText := (alistGet columnMap colKey).getD "N/A"
        encoderType := encoderType
        valueMap := dictBuild (definitionMap.map fun p => (p.2, p.1)) }
    { st with
      df := setCol st.df colKey newCol
      codebook := dictInsert st.codebook colKey entry
      warnings := warnings }

/-- One iteration of the loop in `DataEncoder._encode_likert`. -/
def likertStep (columnMap : List (String × String)) (st : EncState)
    (colKey : String) (actualMap : List (String × Nat)) : EncState :=
  if actualMap.isEmpty then
    { st with
      warnings := st.warnings ++
        [⟨colKey, ["Configuration Error: Likert definition for this column is missing a valid map object."]⟩] }
  else performSmartMapping st colKey actualMap "Likert" columnMap

/-- One iteration of the loop in `DataEncoder._encode_ordinal`. -/
def ordinalStep (columnMap : List (String × String)) (st : EncState)
    (colKey : String) (orderList : List String) : EncState :=
  performSmartMapping st colKey
    (dictBuild (orderList.enum.map fun p => (p.2, p.1))) "Ordinal" columnMap

/-- The fixed positive values of `DataEncoder._encode_binary`. -/
def positiveVals : List String := ["yes", "true", "1", "y"]

/-- The fixed binary value map of `DataEncoder._encode_binary`. -/
def binaryValueMap : List (Nat × String) := [(0, "No/False"), (1, "Yes/True")]

/-- Binary encoding of a single cell. -/
def binEncCell (c : Cell) : Cell :=
  if positiveVals.contains (normCellStr c) then Cell.natv 1 else Cell.natv 0

/-- One iteration of the loop in `DataEncoder._encode_binary`. -/
def binaryStep (columnMap : List (String × String)) (st : EncState)
    (colKey : String) : EncState :=
  if hasColumn st.df colKey = false then st
  else
    let col := (getCol st.df colKey).getD []
    let entry : CodebookEntry :=
      { questionText := (alistGet columnMap colKey).getD "N/A"
        encoderType := "Binary"
        valueMap := binaryValueMap }
    { st with
      df := setCol st.df colKey (col.map binEncCell)
      codebook := dictInsert st.codebook colKey entry
      learned := dictInsert st.learned colKey binaryValueMap }

/-- One iteration of the loop in `DataEncoder._encode_nominal_simple`:
`astype(category)` sorts the distinct non-null values, cells become the
category codes and missing values stay missing. -/
def nominalStep (columnMap : List (String × String)) (st : EncState)
    (colKey : String) : EncState :=
  if hasColumn st.df colKey = false then st
  else
    let col := (getCol st.df colKey).getD []
    let categories :=
      insSort strLeB (dedupF ((col.filter fun c => decide (c ≠ Cell.na)).map cellStr))
    let valueMap := categories.enum
    let codeOf (c : Cell) : Cell :=
      if c = Cell.na then Cell.na
      else match categories.indexOf (cellStr c) with
        | i => Cell.natv i
    let entry : CodebookEntry :=
      { questionText := (alistGet columnMap colKey).getD "N/A"
        encoderType := "Nominal (Factorized)"
        valueMap := valueMap }
    { st with
      df := setCol st.df colKey (col.map codeOf)
      codebook := dictInsert st.codebook colKey entry
      learned := dictInsert st.learned colKey valueMap }

/-- Sanitized dummy-column name of `DataEncoder._encode_nominal_multi`. -/
def sanitizedName (colKey cat : String) : String :=
  colKey ++ "_" ++ String.mk ((cat.toList.filter fun c => c.isAlphanum).map Char.toLower)

/-- Membership of a category in a comma-separated multi-select cell
(`str.get_dummies(sep=c)`). -/
def multiHasCat (c : Cell) (cat : String) : Bool :=
  ((cellStr c).splitOn ",").contains cat

/-- One iteration of the loop in `DataEncoder._encode_nominal_multi`. -/
def multiStep (columnMap : List (String × String)) (st : EncState)
    (colKey : String) (categoriesToFind : List String) : EncState :=
  if hasColumn st.df colKey = false then st
  else if categoriesToFind.isEmpty then st
  else
    let col := (getCol st.df colKey).getD []
    let originalQuestion := (alistGet columnMap colKey).getD colKey
    let dummies : EDf := categoriesToFind.map fun cat =>
      (sanitizedName colKey cat,
        col.map fun c => if multiHasCat c cat then Cell.natv 1 else Cell.natv 0)
    let codebook := categoriesToFind.foldl
      (fun cb cat =>
        dictInsert cb (sanitizedName colKey cat)
          { questionText := originalQuestion ++ " (Category: " ++ cat ++ ")"
            encoderType := "Binary (from Multi-Select)"
            valueMap := [(0, "Not Present"), (1, "Present")] })
      st.codebook
    { st with
      df := dropCol (st.df ++ dummies) colKey
      codebook := codebook }

/-- `DataEncoder._encode_likert`. -/
def likertPass (cfg : EncoderConfig) (st : EncState) : EncState :=
  cfg.likert.foldl (fun s p => likertStep cfg.columnMap s p.1 p.2) st

/-- `DataEncoder._encode_ordinal`. -/
def ordinalPass (cfg : EncoderConfig) (st : EncState) : EncState :=
  cfg.ordinal.foldl (fun s p => ordinalStep cfg.columnMap s p.1 p.2) st

/-- `DataEncoder._encode_binary`. -/
def binaryPass (cfg : EncoderConfig) (st : EncState) : EncState :=
  cfg.binary.foldl (fun s k => binaryStep cfg.columnMap s k) st

/-- `DataEncoder._encode_nominal_simple`. -/
def nominalPass (cfg : EncoderConfig) (st : EncState) : EncState :=
  cfg.nominal.foldl (fun s k => nominalStep cfg.columnMap s k) st

/-- `DataEncoder._encode_nominal_multi`. -/
def multiPass (cfg : EncoderConfig) (st : EncState) : EncState :=
  cfg.nominalMulti.foldl (fun s p => multiStep cfg.columnMap s p.1 p.2) st

/-- `DataEncoder.encode`: the five passes in source order. -/
def encode (df : EDf) (cfg : EncoderConfig) : EncState :=
  multiPass cfg (nominalPass cfg (binaryPass cfg (ordinalPass cfg
    (likertPass cfg { df := df, codebook := [], warnings := [], learned := [] }))))

end Encoder

/-! ## EncodingConfigManager (app/app_encoder/encoder_manager.py, `main` revision) -/

namespace Manager

/-- A JSON object key: configuration value maps carry integer keys when they
come fresh from the encoder and string keys after a JSON round trip. -/
inductive JKey
  | jstr (s : String)
  | jnum (n : Nat)
deriving DecidableEq, Repr

/-- Python `str()` of a JSON key. -/
def JKey.toStr : JKey → String
  | .jstr s => s
  | .jnum n => toString n

/-- A stored or learned value map (`configuration[value_map]`); the empty
list models a missing or empty map. -/
abbrev ValueMap := List (JKey × String)

/-- `{str(k): v for k, v in m.items()}`: rebuild with stringified keys,
later duplicate keys overwriting earlier ones. -/
def strItems (m : ValueMap) : List (String × String) :=
  dictBuild (m.map fun p => (p.1.toStr, p.2))

/-- Python tuple comparison for the pairs handed to `sorted`. -/
def pairLe (a b : String × String) : Bool :=
  strLeB a.1 b.1 && (!(a.1 = b.1 : Bool) || strLeB a.2 b.2)

/-- `sorted({str(k): v for k, v in m.items()}.items())`. -/
def sortedStrItems (m : ValueMap) : List (String × String) :=
  insSort pairLe (strItems m)

/-- JSON serialisation of a value map as committed to the database: object
keys become strings. -/
def jsonKeys (m : ValueMap) : ValueMap :=
  dictBuild (m.map fun p => (JKey.jstr p.1.toStr, p.2))

/-- An `EncoderDefinition` row: its name and the `value_map` entry of its
JSON `configuration` (other configuration entries are never read or written
by the operations modelled here). -/
structure DefRecord where
  name : String
  valueMap : ValueMap
deriving DecidableEq, Repr

/-- A `ColumnEncoding` row: column key and optional assigned definition id. -/
structure ColRecord where
  columnKey : String
  defId : Option Nat
deriving DecidableEq, Repr

/-- The committed database state for one study. -/
structure DbState where
  definitions : List (Nat × DefRecord)
  columns : List ColRecord
deriving DecidableEq, Repr

/-- `config_map.get(col_key)` over the per-study column rows. -/
def lookupCol (cols : List ColRecord) (ck : String) : Option ColRecord :=
  cols.find? fun c => decide (c.columnKey = ck)

/-- Follow the `encoder_definition` relationship. -/
def lookupDef (defs : List (Nat × DefRecord)) (d : Nat) : Option DefRecord :=
  alistGet defs d

/-- Stage `definition.configuration[value_map] = m` for definition id `d`. -/
def setDefMap (defs : List (Nat × DefRecord)) (d : Nat) (m : ValueMap) :
    List (Nat × DefRecord) :=
  defs.map fun p => if p.1 = d then (p.1, { p.2 with valueMap := m }) else p

/-- `config_map.get(col_key)` followed by `col_config.encoder_definition`:
the definition id a column resolves to, none when the loop `continue`s
because the column has no config or no assigned definition. -/
def resolvedId (cols : List ColRecord) (ck : String) : Option Nat :=
  (lookupCol cols ck).bind fun col => col.defId

/-- The body of one loop iteration of
`EncodingConfigManager.update_definition_configurations` once a definition id
is resolved: a dangling relationship is skipped, a populated saved map is
checked for compatibility (stringified keys, order-independent), an empty one
is staged with the learned map (the commit stores JSON string keys). -/
def updApply (defs : List (Nat × DefRecord)) (d : Nat) (nm : ValueMap)
    (ck : String) : Except String (List (Nat × DefRecord)) :=
  match lookupDef defs d with
  | none => .ok defs
  | some defn =>
    if defn.valueMap.isEmpty then .ok (setDefMap defs d (jsonKeys nm))
    else if sortedStrItems defn.valueMap = sortedStrItems nm then .ok defs
    else .error ("Incompatible Value Maps for definition " ++ defn.name ++
      " (used by column " ++ ck ++ ").")

/-- One iteration of the loop in
`EncodingConfigManager.update_definition_configurations`. -/
def updStep (cols : List ColRecord) (defs : List (Nat × DefRecord))
    (ck : String) (nm : ValueMap) : Except String (List (Nat × DefRecord)) :=
  match resolvedId cols ck with
  | none => .ok defs
  | some d => updApply defs d nm ck

/-- The loop of `update_definition_configurations` over the learned maps. -/
def updGo (cols : List ColRecord) (defs : List (Nat × DefRecord)) :
    List (String × ValueMap) → Except String (List (Nat × DefRecord))
  | [] => .ok defs
  | (ck, nm) :: rest =>
    match updStep cols defs ck nm with
    | .ok defs₁ => updGo cols defs₁ rest
    | .error e => .error e

/-- `EncodingConfigManager.update_definition_configurations`: on success the
staged definitions are committed; a raised `ValueError` leaves the committed
state unchanged because the commit only happens after the loop. -/
def updateDefinitionConfigurations (st : DbState)
    (learnedMaps : List (String × ValueMap)) : DbState × Option String :=
  match updGo st.columns st.definitions learnedMaps with
  | .ok defs₁ => ({ st with definitions := defs₁ }, none)
  | .error e => (st, some e)

/-- Errors raised by `EncodingConfigManager.delete_encoder_definition`:
`get_or_404` aborts with NotFound, the safety check raises `ValueError`. -/
inductive DelErr
  | notFound
  | inUse (msg : String)
deriving DecidableEq, Repr

/-- `EncodingConfigManager.delete_encoder_definition`. -/
def deleteEncoderDefinition (st : DbState) (definitionId : Nat) :
    DbState × Option DelErr :=
  match lookupDef st.definitions definitionId with
  | none => (st, some .notFound)
  | some defn =>
    let assignmentCount :=
      (st.columns.filter fun c => decide (c.defId = some definitionId)).length
    if assignmentCount > 0 then
      (st, some (.inUse ("Cannot delete definition " ++ defn.name ++
        " because it is currently assigned to columns. Please unassign it first.")))
    else
      ({ st with definitions := st.definitions.filter fun p => decide (p.1 ≠ definitionId) },
        none)

end Manager

/-! ## WorkspaceManager (app/app_file_mgt/file_workspace_mgt.py) -/

namespace Workspace

/-- Boolean prefix test on lists (first argument is the candidate prefix). -/
def listIsPre [DecidableEq α] : List α → List α → Bool
  | [], _ => true
  | _ :: _, [] => false
  | a :: pa, b :: lb => if a = b then listIsPre pa lb else false

/-- Python `str.startswith` and the `startswith` guard of the source. -/
def strStarts (s pat : String) : Bool := listIsPre pat.toList s.toList

/-- Python `str.endswith`, used by `os.path.join`. -/
def strEnds (s pat : String) : Bool :=
  listIsPre pat.toList.reverse s.toList.reverse

/-- Split a character list on a separator character, keeping empty chunks. -/
def splitOnChar (sep : Char) : List Char → List Char → List (List Char)
  | [], acc => [acc.reverse]
  | c :: rest, acc =>
    if c = sep then acc.reverse :: splitOnChar sep rest []
    else splitOnChar sep rest (c :: acc)

/-- Path components of a POSIX path string. -/
def pathParts (p : String) : List String :=
  (splitOnChar '/' p.toList []).map String.mk

/-- Lexical resolution of `.` and `..` as `posixpath.normpath` performs for
absolute paths (a `..` at the root stays at the root). -/
def normStack (parts : List String) : List String :=
  parts.foldl
    (fun stack part =>
      if part = "" ∨ part = "." then stack
      else if part = ".." then stack.dropLast
      else stack ++ [part])
    []

/-- `os.path.abspath` restricted to absolute inputs, where it coincides with
`posixpath.normpath` (every path built here starts from the absolute Flask
instance path). -/
def normPath (p : String) : String :=
  "/" ++ String.intercalate "/" (normStack (pathParts p))

/-- `os.path.join` for two components on POSIX. -/
def joinPath (a b : String) : String :=
  if strStarts b "/" then b
  else if a = "" then b
  else if strEnds a "/" then a ++ b
  else a ++ "/" ++ b

/-- The characters kept by werkzeug `secure_filename` (`[A-Za-z0-9_.-]`). -/
def sfAllowed (c : Char) : Bool :=
  c.isAlphanum || c = '_' || c = '.' || c = '-'

/-- Strip leading characters in `._`, as Python `strip("._")` does per side. -/
def dropDotUnderscore (l : List Char) : List Char :=
  l.dropWhile fun c => c = '.' || c = '_'

/-- werkzeug `secure_filename`, modelled for ASCII inputs: drop non-ASCII
(the NFKD plus ascii-encode step), replace the path separator by a space,
split on whitespace and join with underscores, remove disallowed characters,
strip leading and trailing dots and underscores. -/
def secureFilename (s : String) : String :=
  let ascii := s.toList.filter fun c => c.toNat < 128
  let replaced := ascii.map fun c => if c = '/' then ' ' else c
  let joined := ((splitWs replaced).intersperse ['_']).flatten
  let kept := joined.filter sfAllowed
  String.mk (dropDotUnderscore (dropDotUnderscore kept.reverse).reverse)

/-- `WorkspaceManager._get_workspace_root`: falsy user or project context
raises SecurityException, then the workspace path is built under
`instance/temp_workspaces` and guarded by a `startswith` check. -/
def getWorkspaceRoot (instancePath userId projectCode : String) :
    Except String String :=
  if userId = "" ∨ projectCode = "" then .error "Invalid workspace context"
  else
    let baseDir := normPath (joinPath instancePath "temp_workspaces")
    let workspacePath :=
      normPath (joinPath (joinPath baseDir userId) (secureFilename projectCode))
    if strStarts workspacePath baseDir then .ok workspacePath
    else .error "Path traversal attempt detected"

/-! ### SHA-256 (hashlib.sha256, as used by `calculate_checksum`) -/

/-- Truncation to a 32-bit word. -/
def w32 (n : Nat) : Nat := n % 4294967296

/-- 32-bit modular addition. -/
def wadd (a b : Nat) : Nat := (a + b) % 4294967296

/-- 32-bit right rotation (arguments are already 32-bit words). -/
def rotr (x n : Nat) : Nat := (x >>> n) ||| (w32 (x <<< (32 - n)))

/-- 32-bit complement of a word. -/
def wnot (x : Nat) : Nat := 4294967295 - x

def shaCh (x y z : Nat) : Nat := (x &&& y) ^^^ (wnot x &&& z)

def shaMaj (x y z : Nat) : Nat := (x &&& y) ^^^ (x &&& z) ^^^ (y &&& z)

def bsig0 (x : Nat) : Nat := rotr x 2 ^^^ rotr x 13 ^^^ rotr x 22

def bsig1 (x : Nat) : Nat := rotr x 6 ^^^ rotr x 11 ^^^ rotr x 25

def ssig0 (x : Nat) : Nat := rotr x 7 ^^^ rotr x 18 ^^^ (x >>> 3)

def ssig1 (x : Nat) : Nat := rotr x 17 ^^^ rotr x 19 ^^^ (x >>> 10)

/-- The SHA-256 round constants. -/
def shaK : List Nat :=
  [1116352408, 1899447441, 3049323471, 3921009573, 961987163, 1508970993,
   2453635748, 2870763221, 3624381080, 310598401, 607225278, 1426881987,
   1925078388, 2162078206, 2614888103, 3248222580, 3835390401, 4022224774,
   264347078, 604807628, 770255983, 1249150122, 1555081692, 1996064986,
   2554220882, 2821834349, 2952996808, 3210313671, 3336571891, 3584528711,
   113926993, 338241895, 666307205, 773529912, 1294757372, 1396182291,
   1695183700, 1986661051, 2177026350, 2456956037, 2730485921, 2820302411,
   3259730800, 3345764771, 3516065817, 3600352804, 4094571909, 275423344,
   430227734, 506948616, 659060556, 883997877, 958139571, 1322822218,
   1537002063, 1747873779, 1955562222, 2024104815, 2227730452, 2361852424,
   2428436474, 2756734187, 3204031479, 3329325298]

/-- The SHA-256 initial hash value. -/
def shaH0 : List Nat :=
  [1779033703, 3144134277, 1013904242, 2773480762, 1359893119, 2600822924,
   528734635, 1541459225]

/-- Big-endian 4-byte groups to 32-bit words. -/
def bytesToWords : List Nat → List Nat
  | b0 :: b1 :: b2 :: b3 :: rest =>
    (((b0 * 256 + b1) * 256 + b2) * 256 + b3) :: bytesToWords rest
  | _ => []

/-- Big-endian bytes of a 64-bit length. -/
def lenBytes64 (n : Nat) : List Nat :=
  [(n >>> 56) % 256, (n >>> 48) % 256, (n >>> 40) % 256, (n >>> 32) % 256,
   (n >>> 24) % 256, (n >>> 16) % 256, (n >>> 8) % 256, n % 256]

/-- SHA-256 message padding. -/
def padBytes (msg : List Nat) : List Nat :=
  let zeros := (64 - ((msg.length + 9) % 64)) % 64
  msg ++ [128] ++ List.replicate zeros 0 ++ lenBytes64 (msg.length * 8)

/-- Extend the message schedule by one word. -/
def stepW (w : List Nat) : List Nat :=
  let n := w.length
  w ++ [wadd (wadd (ssig1 (w.getD (n - 2) 0)) (w.getD (n - 7) 0))
            (wadd (ssig0 (w.getD (n - 15) 0)) (w.getD (n - 16) 0))]

/-- The 64-word message schedule of one block. -/
def schedule (w16 : List Nat) : List Nat :=
  (List.range 48).foldl (fun w _ => stepW w) w16

/-- One SHA-256 round on the state `[a, b, c, d, e, f, g, h]`. -/
def roundFn (st : List Nat) (kw : Nat × Nat) : List Nat :=
  match st with
  | [a, b, c, d, e, f, g, h] =>
    let t1 := wadd (wadd (wadd h (bsig1 e)) (wadd (shaCh e f g) kw.1)) kw.2
    let t2 := wadd (bsig0 a) (shaMaj a b c)
    [wadd t1 t2, a, b, c, wadd d t1, e, f, g]
  | other => other

/-- Compress one 64-byte block into the hash state. -/
def compressBlock (h : List Nat) (block : List Nat) : List Nat :=
  let w := schedule (bytesToWords block)
  let st := (shaK.zip w).foldl roundFn h
  List.zipWith wadd h st

/-- Split into 64-byte chunks. -/
def chunks64 (l : List Nat) : List (List Nat) :=
  if h64 : l = [] then []
  else l.take 64 :: chunks64 (l.drop 64)
termination_by l.length
decreasing_by
  simp only [List.length_drop]
  have : 0 < l.length := List.length_pos.mpr h64
  omega

/-- A hexadecimal digit. -/
def nibbleChar (n : Nat) : Char :=
  if n < 10 then Char.ofNat (48 + n) else Char.ofNat (87 + n)

/-- Lower-case hexadecimal rendering of a 32-bit word. -/
def toHex32 (n : Nat) : String :=
  String.mk ((List.range 8).map fun i => nibbleChar ((n >>> ((7 - i) * 4)) % 16))

/-- The SHA-256 hex digest of a byte sequence, as `hashlib.sha256(...)
.hexdigest()` computes it (`calculate_checksum` feeds the file in 4096-byte
chunks; incremental hashing of the chunks digests their concatenation, the
whole file). -/
def sha256Hex (msg : List Nat) : String :=
  String.join (((chunks64 (padBytes msg)).foldl compressBlock shaH0).map toHex32)

end Workspace

namespace Workspace

/-- A flat file system: path to byte content. -/
abbrev FileSys := List (String × List Nat)

/-- Read a file. -/
def getFile (fs : FileSys) (p : String) : Option (List Nat) := alistGet fs p

/-- Create or overwrite a file. -/
def setFile (fs : FileSys) (p : String) (content : List Nat) : FileSys :=
  dictInsert fs p content

/-- `os.remove` preceded by the `os.path.exists` guard in `save_file`. -/
def removeFile (fs : FileSys) (p : String) : FileSys :=
  fs.filter fun q => decide (q.1 ≠ p)

/-- Where an exception interrupts `save_file`: never, in the write to the
temporary file (possibly leaving partial bytes), in `os.replace`, or in the
`calculate_checksum` read of the installed file. -/
inductive FailPoint
  | noFail
  | atWrite (written : Option (List Nat))
  | atReplace
  | atRead
deriving DecidableEq, Repr

/-- The result dictionary of a successful `save_file` (the timestamp field
carries no verified content and is omitted). -/
structure SaveResult where
  status : String
  path : String
  checksum : String
deriving DecidableEq, Repr

/-- `WorkspaceManager.calculate_checksum`: SHA-256 hex digest of the bytes of
the file at the path (read in 4096-byte chunks whose incremental digest is
the digest of the whole content). -/
def calculateChecksum (fs : FileSys) (p : String) : String :=
  sha256Hex ((getFile fs p).getD [])

/-- `WorkspaceManager.save_file`: resolve the workspace root, write the
content to `<target>.tmp`, install it with one `os.replace`, hash the
installed file; on an exception remove the temporary file if it still exists
and re-raise. -/
def saveFile (fs : FileSys) (instancePath userId projectCode filename : String)
    (content : List Nat) (failAt : FailPoint) :
    FileSys × Except String SaveResult :=
  match getWorkspaceRoot instancePath userId projectCode with
  | .error e => (fs, .error e)
  | .ok workspace =>
    let targetPath := joinPath workspace (secureFilename filename)
    let tempPath := targetPath ++ ".tmp"
    let cleanup (fs₁ : FileSys) : FileSys :=
      if (getFile fs₁ tempPath).isSome then removeFile fs₁ tempPath else fs₁
    match failAt with
    | .atWrite written =>
      let fs₁ := match written with
        | some bytes => setFile fs tempPath bytes
        | none => fs
      (cleanup fs₁, .error "write failed")
    | .atReplace =>
      let fs₁ := setFile fs tempPath content
      (cleanup fs₁, .error "replace failed")
    | .atRead =>
      let fs₁ := setFile fs tempPath content
      let fs₂ := setFile (removeFile fs₁ tempPath) targetPath content
      (cleanup fs₂, .error "read failed")
    | .noFail =>
      let fs₁ := setFile fs tempPath content
      let fs₂ := setFile (removeFile fs₁ tempPath) targetPath content
      (fs₂, .ok { status := "success", path := targetPath,
                  checksum := calculateChecksum fs₂ targetPath })

end Workspace

/-! ## DataBootstrapper (app/ops_bootstrap.py) -/

namespace Bootstrap

open Encoder in
/-- A dataframe, row-oriented: column names and rows of cells. -/
structure BDf where
  cols : List String
  rows : List (List Encoder.Cell)
deriving DecidableEq, Repr

/-- The state of a `DataBootstrapper`: the loaded original data, the last
simulated data and the question map. -/
structure BootState where
  original : Option BDf
  simulated : Option BDf
  questionMap : List (String × String)

/-- `df.sample(n=new_size, replace=True, ignore_index=True, random_state=rs)`:
the pandas RandomState seeded with a fixed integer picks, for a fixed
population size, a deterministic sequence of row positions; `pick` is that
sequence. -/
def sampleRows (df : BDf) (n : Nat) (pick : Nat → Nat) : BDf :=
  { cols := df.cols, rows := (List.range n).map fun i => df.rows.getD (pick i) [] }

/-- Position of a column name (`list.index`, first match). -/
def colIdx : List String → String → Option Nat
  | [], _ => none
  | a :: rest, c => if a = c then some 0 else (colIdx rest c).map (· + 1)

/-- Read one cell of a row by column name. -/
def getCell (cols : List String) (row : List Encoder.Cell) (c : String) :
    Encoder.Cell :=
  row.getD ((colIdx cols c).getD 0) Encoder.Cell.na

/-- `self.original_df[sel]`: project a frame onto a list of column names. -/
def colProj (df : BDf) (sel : List String) : BDf :=
  { cols := sel, rows := df.rows.map fun r => sel.map (getCell df.cols r) }

/-- `pd.concat([a, b], axis=1)` after both indices are reset: the frames have
the same number of rows (both were sampled to `new_size`). -/
def concatCols (a b : BDf) : BDf :=
  { cols := a.cols ++ b.cols, rows := List.zipWith (· ++ ·) a.rows b.rows }

/-- `DataBootstrapper.bootstrap`. -/
def bootstrap (st : BootState) (newSize : Nat) (pick : Nat → Nat) :
    Except String (BDf × BootState) :=
  match st.original with
  | none => .error "Original data not loaded."
  | some odf =>
    let sdf := sampleRows odf newSize pick
    .ok (sdf, { st with simulated := some sdf })

/-- `DataBootstrapper.bootstrap_remix`: identify the remix slice of the
question-map keys, sample the fixed part and the remix part with the same
random state (hence the same row positions `pick`), concatenate and reorder
to the full column list. -/
def bootstrapRemix (st : BootState) (newSize : Nat)
    (startRemixCol endRemixCol : String) (pick : Nat → Nat) :
    Except String (BDf × BootState) :=
  match st.original with
  | none => .error "Original data not loaded."
  | some odf =>
    if st.questionMap.isEmpty then .error "Question map (JSON) not loaded."
    else
      let allCols := st.questionMap.map Prod.fst
      match colIdx allCols startRemixCol, colIdx allCols endRemixCol with
      | some startIndex, some endIndex =>
        if startIndex > endIndex then
          .error "The start remix column must come before the end column."
        else
          let remixCols := (allCols.drop startIndex).take (endIndex + 1 - startIndex)
          let fixedCols := allCols.take startIndex ++ allCols.drop (endIndex + 1)
          let randomPart := sampleRows (colProj odf remixCols) newSize pick
          let combined :=
            if fixedCols.isEmpty then randomPart
            else concatCols (sampleRows (colProj odf fixedCols) newSize pick) randomPart
          let sdf := colProj combined allCols
          .ok (sdf, { st with simulated := some sdf })
      | _, _ =>
        .error "A specified start or end column was not found in the question map keys."

end Bootstrap

/-! ## Further association-list lemmas -/

theorem alistGet_dictInsert_self [DecidableEq κ] (m : List (κ × α)) (k : κ) (v : α) :
    alistGet (dictInsert m k v) k = some v := by
  induction m with
  | nil => simp [dictInsert, alistGet]
  | cons q rest ih =>
    obtain ⟨qk, qv⟩ := q
    by_cases hq : qk = k
    · simp [dictInsert, alistGet, hq]
    · simp [dictInsert, alistGet, hq, ih]

theorem any_eq_isSome_alistGet [DecidableEq κ] (m : List (κ × α)) (k : κ) :
    (m.any fun p => decide (p.1 = k)) = (alistGet m k).isSome := by
  induction m with
  | nil => simp [alistGet]
  | cons p rest ih =>
    obtain ⟨pk, pv⟩ := p
    by_cases hp : pk = k
    · simp [alistGet, hp]
    · simp [alistGet, hp, ih]

theorem alistGet_map_replace_self [DecidableEq κ] (m : List (κ × α)) (k : κ) (v : α)
    (h : (alistGet m k).isSome) :
    alistGet (m.map fun p => if p.1 = k then (k, v) else p) k = some v := by
  induction m with
  | nil => simp [alistGet] at h
  | cons p rest ih =>
    obtain ⟨pk, pv⟩ := p
    by_cases hp : pk = k
    · simp [alistGet, hp]
    · simp only [alistGet, if_neg hp] at h
      simpa [alistGet, if_neg hp] using ih h

/-! ## Encoder lemmas and claim theorems C1, C4 -/

namespace Encoder

theorem hasColumn_eq_isSome (df : EDf) (k : String) :
    hasColumn df k = (getCol df k).isSome :=
  any_eq_isSome_alistGet df k

theorem getCol_setCol_self (df : EDf) (k : String) (cells : List Cell)
    (h : (getCol df k).isSome) : getCol (setCol df k cells) k = some cells :=
  alistGet_map_replace_self df k cells h

end Encoder

/-- C4: a configured column key that is not a column of the dataframe is never
transformed: every per-column encoding step of `DataEncoder` (Likert, Ordinal,
Binary, simple Nominal, multi-select Nominal) leaves both the dataframe and the
codebook exactly as they were for such a key. -/
theorem C4_absent_key_never_transformed (st : Encoder.EncState)
    (columnMap : List (String × String)) (colKey : String)
    (lmap : List (String × Nat)) (order : List String) (cats : List String)
    (h : Encoder.hasColumn st.df colKey = false) :
    ((Encoder.likertStep columnMap st colKey lmap).df = st.df ∧
      (Encoder.likertStep columnMap st colKey lmap).codebook = st.codebook) ∧
    ((Encoder.ordinalStep columnMap st colKey order).df = st.df ∧
      (Encoder.ordinalStep columnMap st colKey order).codebook = st.codebook) ∧
    (Encoder.binaryStep columnMap st colKey = st ∧
      Encoder.nominalStep columnMap st colKey = st ∧
      Encoder.multiStep columnMap st colKey cats = st) := by
  refine ⟨⟨?_, ?_⟩, ⟨?_, ?_⟩, ?_, ?_, ?_⟩
  · by_cases hm : lmap.isEmpty <;>
      simp [Encoder.likertStep, Encoder.performSmartMapping, h, hm]
  · by_cases hm : lmap.isEmpty <;>
      simp [Encoder.likertStep, Encoder.performSmartMapping, h, hm]
  · simp [Encoder.ordinalStep, Encoder.performSmartMapping, h]
  · simp [Encoder.ordinalStep, Encoder.performSmartMapping, h]
  · simp [Encoder.binaryStep, h]
  · simp [Encoder.nominalStep, h]
  · simp [Encoder.multiStep, h]

/-- Witness for C4 at a concrete state whose dataframe lacks the key q9. -/
theorem C4_absent_key_never_transformed_witness :
    Encoder.hasColumn [("q1", [Encoder.Cell.strv "a"])] "q9" = false ∧
    (Encoder.binaryStep []
      { df := [("q1", [Encoder.Cell.strv "a"])], codebook := [],
        warnings := [], learned := [] } "q9" =
      { df := [("q1", [Encoder.Cell.strv "a"])], codebook := [],
        warnings := [], learned := [] }) :=
  ⟨by decide,
    (C4_absent_key_never_transformed
      { df := [("q1", [Encoder.Cell.strv "a"])], codebook := [],
        warnings := [], learned := [] }
      [] "q9" [] [] [] (by decide)).2.2.1⟩


namespace Encoder

/-- The distinct non-null original cells of a column whose normalized form is
not a key of the normalized definition map, in the direct phrasing of the
claim. -/
def specUnmapped (col : List Cell) (ndm : List (String × Nat)) : List String :=
  ((dedupF (col.filter fun c => decide (c ≠ Cell.na))).filter fun c =>
    (alistGet ndm (normCellStr c)).isNone).map cellStr

theorem contains_unmapped_eq (col : List Cell) (ndm : List (String × Nat))
    (c : Cell) (hc : c ∈ dedupF (col.filter fun x => decide (x ≠ Cell.na))) :
    ((dedupF ((col.filter fun x => decide (x ≠ Cell.na)).map normCellStr)).filter
      fun s => (alistGet ndm s).isNone).contains (normCellStr c) =
    (alistGet ndm (normCellStr c)).isNone := by
  have hcn : normCellStr c ∈
      dedupF ((col.filter fun x => decide (x ≠ Cell.na)).map normCellStr) :=
    (mem_dedupF _ _).mpr (List.mem_map_of_mem _ ((mem_dedupF _ _).mp hc))
  cases hNone : (alistGet ndm (normCellStr c)).isNone with
  | true =>
    exact List.elem_iff.mpr (List.mem_filter.mpr ⟨hcn, hNone⟩)
  | false =>
    have hnm : normCellStr c ∉
        (dedupF ((col.filter fun x => decide (x ≠ Cell.na)).map normCellStr)).filter
          (fun s => (alistGet ndm s).isNone) := by
      intro hmem
      have hmem2 := (List.mem_filter.mp hmem).2
      rw [hNone] at hmem2
      exact Bool.false_ne_true hmem2
    exact Bool.eq_false_iff.mpr fun hco => hnm (List.elem_iff.mp hco)

theorem unmapped_isEmpty_eq (col : List Cell) (ndm : List (String × Nat)) :
    ((dedupF ((col.filter fun x => decide (x ≠ Cell.na)).map normCellStr)).filter
      fun s => (alistGet ndm s).isNone).isEmpty =
    (specUnmapped col ndm).isEmpty := by
  rw [Bool.eq_iff_iff, List.isEmpty_iff, List.isEmpty_iff, specUnmapped,
    List.map_eq_nil_iff, List.filter_eq_nil_iff, List.filter_eq_nil_iff]
  constructor
  · intro hall c hc hnone
    exact hall (normCellStr c)
      ((mem_dedupF _ _).mpr (List.mem_map_of_mem _ ((mem_dedupF _ _).mp hc)))
      hnone
  · intro hall s hs hnone
    obtain ⟨c, hcmem, rfl⟩ := List.mem_map.mp ((mem_dedupF _ _).mp hs)
    exact hall c ((mem_dedupF _ _).mpr hcmem) hnone

end Encoder

open Encoder in
/-- C1: for a Likert- or Ordinal-configured column key that exists in the
dataframe, `_perform_smart_mapping` maps each cell through the whitespace-
and case-normalized definition map, records a codebook entry for the column
(question text, encoder type, inverted value map), and appends exactly one
warning listing, sorted, the distinct non-null original values whose
normalized form is not a key of the definition map; no warning is appended
when every value is mapped. -/
theorem C1_smart_mapping (st : EncState) (colKey : String)
    (dmap : List (String × Nat)) (etype : String) (cmap : List (String × String))
    (col : List Cell) (hcol : getCol st.df colKey = some col) :
    (getCol (performSmartMapping st colKey dmap etype cmap).df colKey =
      some (col.map fun c =>
        match alistGet (dictBuild (dmap.map fun p => (normalizeText p.1, p.2)))
            (normCellStr c) with
        | some v => Cell.natv v
        | none => Cell.na)) ∧
    (alistGet (performSmartMapping st colKey dmap etype cmap).codebook colKey =
      some { questionText := (alistGet cmap colKey).getD "N/A"
             encoderType := etype
             valueMap := dictBuild (dmap.map fun p => (p.2, p.1)) }) ∧
    ((performSmartMapping st colKey dmap etype cmap).warnings =
      st.warnings ++
        (if (specUnmapped col (dictBuild (dmap.map fun p => (normalizeText p.1, p.2)))).isEmpty
         then []
         else [⟨colKey, insSort strLeB
            (specUnmapped col (dictBuild (dmap.map fun p => (normalizeText p.1, p.2))))⟩])) := by
  have hhas : hasColumn st.df colKey = true := by
    rw [hasColumn_eq_isSome, hcol]; rfl
  have hsome : (getCol st.df colKey).isSome := by rw [hcol]; rfl
  unfold performSmartMapping
  rw [hhas]
  simp only [Bool.true_eq_false, if_false, hcol, Option.getD_some]
  refine ⟨getCol_setCol_self st.df colKey _ hsome, alistGet_dictInsert_self _ _ _, ?_⟩
  rw [unmapped_isEmpty_eq col (dictBuild (dmap.map fun p => (normalizeText p.1, p.2)))]
  cases hemp : (specUnmapped col
      (dictBuild (dmap.map fun p => (normalizeText p.1, p.2)))).isEmpty with
  | true => simp
  | false =>
    simp only [Bool.false_eq_true, if_false]
    have hlist :
        ((dedupF (col.filter fun x => decide (x ≠ Cell.na))).filter fun c =>
          ((dedupF ((col.filter fun x => decide (x ≠ Cell.na)).map normCellStr)).filter
            fun s => (alistGet (dictBuild (dmap.map fun p => (normalizeText p.1, p.2))) s).isNone).contains
              (normCellStr c)).map cellStr =
        specUnmapped col (dictBuild (dmap.map fun p => (normalizeText p.1, p.2))) := by
      unfold specUnmapped
      exact congrArg (List.map cellStr)
        (List.filter_congr fun c hc => contains_unmapped_eq col _ c hc)
    rw [hlist]

theorem alistGet_append_left_some [DecidableEq κ] (a b : List (κ × α)) (k : κ) (v : α)
    (h : alistGet a k = some v) : alistGet (a ++ b) k = some v := by
  induction a with
  | nil => simp [alistGet] at h
  | cons p rest ih =>
    obtain ⟨pk, pv⟩ := p
    by_cases hp : pk = k
    · simpa [alistGet, hp] using (by simpa [alistGet, hp] using h : pv = v)
    · simp only [alistGet, if_neg hp] at h
      simpa [alistGet, hp] using ih h

theorem alistGet_filter_other [DecidableEq κ] (m : List (κ × α)) (k ck : κ)
    (h : k ≠ ck) :
    alistGet (m.filter fun p => decide (p.1 ≠ k)) ck = alistGet m ck := by
  induction m with
  | nil => rfl
  | cons p rest ih =>
    obtain ⟨pk, pv⟩ := p
    simp only [decide_not] at ih ⊢
    by_cases hpk : pk = k
    · subst hpk
      simp [alistGet, h, ih]
    · by_cases hpc : pk = ck
      · subst hpc
        simp [alistGet, hpk]
      · simp [alistGet, hpk, hpc, ih]

theorem alistGet_foldl_dictInsert_ne [DecidableEq κ] (l : List β) (f : β → κ)
    (g : β → α) (m : List (κ × α)) (ck : κ) (h : ∀ b ∈ l, f b ≠ ck) :
    alistGet (l.foldl (fun acc b => dictInsert acc (f b) (g b)) m) ck =
      alistGet m ck := by
  induction l generalizing m with
  | nil => rfl
  | cons b rest ih =>
    simp only [List.foldl_cons]
    rw [ih _ fun x hx => h x (List.mem_cons_of_mem _ hx),
      alistGet_dictInsert_ne _ _ _ _ (h b (List.mem_cons_self _ _)).symm]

namespace Encoder

theorem smartMapping_preserves_ne (st : EncState) (k ck : String)
    (dmap : List (String × Nat)) (etype : String) (cmap : List (String × String))
    (h : k ≠ ck) :
    getCol (performSmartMapping st k dmap etype cmap).df ck = getCol st.df ck ∧
    alistGet (performSmartMapping st k dmap etype cmap).codebook ck =
      alistGet st.codebook ck ∧
    (performSmartMapping st k dmap etype cmap).learned = st.learned := by
  unfold performSmartMapping
  cases hk : hasColumn st.df k with
  | false => simp
  | true =>
    simp only [Bool.true_eq_false, if_false]
    refine ⟨alistGet_map_replace_ne st.df k ck _ h.symm,
      alistGet_dictInsert_ne st.codebook k ck _ h.symm, by trivial⟩

theorem likertStep_preserves_ne (st : EncState) (k ck : String)
    (lmap : List (String × Nat)) (cmap : List (String × String)) (h : k ≠ ck) :
    getCol (likertStep cmap st k lmap).df ck = getCol st.df ck ∧
    alistGet (likertStep cmap st k lmap).codebook ck = alistGet st.codebook ck ∧
    (likertStep cmap st k lmap).learned = st.learned := by
  unfold likertStep
  by_cases hm : lmap.isEmpty
  · simp [hm]
  · simpa [hm] using smartMapping_preserves_ne st k ck lmap "Likert" cmap h

theorem ordinalStep_preserves_ne (st : EncState) (k ck : String)
    (order : List String) (cmap : List (String × String)) (h : k ≠ ck) :
    getCol (ordinalStep cmap st k order).df ck = getCol st.df ck ∧
    alistGet (ordinalStep cmap st k order).codebook ck = alistGet st.codebook ck ∧
    (ordinalStep cmap st k order).learned = st.learned :=
  smartMapping_preserves_ne st k ck _ "Ordinal" cmap h

theorem binaryStep_preserves_ne (st : EncState) (k ck : String)
    (cmap : List (String × String)) (h : k ≠ ck) :
    getCol (binaryStep cmap st k).df ck = getCol st.df ck ∧
    alistGet (binaryStep cmap st k).codebook ck = alistGet st.codebook ck ∧
    alistGet (binaryStep cmap st k).learned ck = alistGet st.learned ck := by
  unfold binaryStep
  cases hk : hasColumn st.df k with
  | false => simp
  | true =>
    simp only [Bool.true_eq_false, if_false]
    refine ⟨alistGet_map_replace_ne st.df k ck _ h.symm,
      alistGet_dictInsert_ne st.codebook k ck _ h.symm,
      alistGet_dictInsert_ne st.learned k ck _ h.symm⟩

theorem binaryStep_warnings (st : EncState) (k : String)
    (cmap : List (String × String)) :
    (binaryStep cmap st k).warnings = st.warnings := by
  unfold binaryStep
  cases hk : hasColumn st.df k with
  | false => simp
  | true => simp

theorem binaryStep_at_key (st : EncState) (ck : String)
    (cmap : List (String × String)) (col : List Cell)
    (hcol : getCol st.df ck = some col) :
    getCol (binaryStep cmap st ck).df ck = some (col.map binEncCell) ∧
    alistGet (binaryStep cmap st ck).codebook ck =
      some { questionText := (alistGet cmap ck).getD "N/A"
             encoderType := "Binary"
             valueMap := binaryValueMap } ∧
    alistGet (binaryStep cmap st ck).learned ck = some binaryValueMap := by
  have hhas : hasColumn st.df ck = true := by
    rw [hasColumn_eq_isSome, hcol]; rfl
  have hsome : (getCol st.df ck).isSome := by rw [hcol]; rfl
  unfold binaryStep
  rw [hhas]
  simp only [Bool.true_eq_false, if_false, hcol, Option.getD_some]
  exact ⟨getCol_setCol_self st.df ck _ hsome, alistGet_dictInsert_self _ _ _,
    alistGet_dictInsert_self _ _ _⟩

theorem nominalStep_preserves_ne (st : EncState) (k ck : String)
    (cmap : List (String × String)) (h : k ≠ ck) :
    getCol (nominalStep cmap st k).df ck = getCol st.df ck ∧
    alistGet (nominalStep cmap st k).codebook ck = alistGet st.codebook ck ∧
    alistGet (nominalStep cmap st k).learned ck = alistGet st.learned ck := by
  unfold nominalStep
  cases hk : hasColumn st.df k with
  | false => simp
  | true =>
    simp only [Bool.true_eq_false, if_false]
    refine ⟨alistGet_map_replace_ne st.df k ck _ h.symm,
      alistGet_dictInsert_ne st.codebook k ck _ h.symm,
      alistGet_dictInsert_ne st.learned k ck _ h.symm⟩

theorem multiStep_preserves_ne (st : EncState) (k ck : String)
    (cats : List String) (cmap : List (String × String)) (v : List Cell)
    (h : k ≠ ck) (hnames : ∀ cat ∈ cats, sanitizedName k cat ≠ ck)
    (hv : getCol st.df ck = some v) :
    getCol (multiStep cmap st k cats).df ck = some v ∧
    alistGet (multiStep cmap st k cats).codebook ck = alistGet st.codebook ck ∧
    (multiStep cmap st k cats).learned = st.learned := by
  cases hk : hasColumn st.df k with
  | false =>
    have hid : multiStep cmap st k cats = st := by simp [multiStep, hk]
    rw [hid]
    exact ⟨hv, rfl, rfl⟩
  | true =>
    by_cases hc : cats.isEmpty
    · have hid : multiStep cmap st k cats = st := by simp [multiStep, hk, hc]
      rw [hid]
      exact ⟨hv, rfl, rfl⟩
    · unfold multiStep
      simp only [hk, Bool.true_eq_false, if_false, hc, Bool.false_eq_true]
      refine ⟨?_, ?_, by trivial⟩
      · unfold dropCol getCol
        rw [alistGet_filter_other _ k ck h]
        unfold getCol at hv
        exact alistGet_append_left_some _ _ _ _ hv
      · exact alistGet_foldl_dictInsert_ne cats _ _ st.codebook ck hnames

end Encoder

namespace Encoder

theorem likertFold_preserves (l : List (String × List (String × Nat)))
    (cmap : List (String × String)) (st : EncState) (ck : String)
    (h : ∀ p ∈ l, p.1 ≠ ck) :
    getCol ((l.foldl (fun s p => likertStep cmap s p.1 p.2) st)).df ck =
      getCol st.df ck ∧
    alistGet ((l.foldl (fun s p => likertStep cmap s p.1 p.2) st)).codebook ck =
      alistGet st.codebook ck ∧
    ((l.foldl (fun s p => likertStep cmap s p.1 p.2) st)).learned = st.learned := by
  induction l generalizing st with
  | nil => exact ⟨rfl, rfl, rfl⟩
  | cons p rest ih =>
    simp only [List.foldl_cons]
    obtain ⟨h1, h2, h3⟩ :=
      likertStep_preserves_ne st p.1 ck p.2 cmap (h p (List.mem_cons_self _ _))
    obtain ⟨g1, g2, g3⟩ := ih (likertStep cmap st p.1 p.2)
      fun q hq => h q (List.mem_cons_of_mem _ hq)
    exact ⟨g1.trans h1, g2.trans h2, g3.trans h3⟩

theorem ordinalFold_preserves (l : List (String × List String))
    (cmap : List (String × String)) (st : EncState) (ck : String)
    (h : ∀ p ∈ l, p.1 ≠ ck) :
    getCol ((l.foldl (fun s p => ordinalStep cmap s p.1 p.2) st)).df ck =
      getCol st.df ck ∧
    alistGet ((l.foldl (fun s p => ordinalStep cmap s p.1 p.2) st)).codebook ck =
      alistGet st.codebook ck ∧
    ((l.foldl (fun s p => ordinalStep cmap s p.1 p.2) st)).learned = st.learned := by
  induction l generalizing st with
  | nil => exact ⟨rfl, rfl, rfl⟩
  | cons p rest ih =>
    simp only [List.foldl_cons]
    obtain ⟨h1, h2, h3⟩ :=
      ordinalStep_preserves_ne st p.1 ck p.2 cmap (h p (List.mem_cons_self _ _))
    obtain ⟨g1, g2, g3⟩ := ih (ordinalStep cmap st p.1 p.2)
      fun q hq => h q (List.mem_cons_of_mem _ hq)
    exact ⟨g1.trans h1, g2.trans h2, g3.trans h3⟩

theorem binaryFold_warnings (l : List String) (cmap : List (String × String))
    (st : EncState) :
    (l.foldl (fun s k => binaryStep cmap s k) st).warnings = st.warnings := by
  induction l generalizing st with
  | nil => rfl
  | cons k rest ih =>
    simp only [List.foldl_cons]
    exact (ih (binaryStep cmap st k)).trans (binaryStep_warnings st k cmap)

theorem binaryFold_preserves (l : List String) (cmap : List (String × String))
    (st : EncState) (ck : String) (h : ∀ k ∈ l, k ≠ ck) :
    getCol ((l.foldl (fun s k => binaryStep cmap s k) st)).df ck =
      getCol st.df ck ∧
    alistGet ((l.foldl (fun s k => binaryStep cmap s k) st)).codebook ck =
      alistGet st.codebook ck ∧
    alistGet ((l.foldl (fun s k => binaryStep cmap s k) st)).learned ck =
      alistGet st.learned ck := by
  induction l generalizing st with
  | nil => exact ⟨rfl, rfl, rfl⟩
  | cons k rest ih =>
    simp only [List.foldl_cons]
    obtain ⟨h1, h2, h3⟩ :=
      binaryStep_preserves_ne st k ck cmap (h k (List.mem_cons_self _ _))
    obtain ⟨g1, g2, g3⟩ := ih (binaryStep cmap st k)
      fun q hq => h q (List.mem_cons_of_mem _ hq)
    exact ⟨g1.trans h1, g2.trans h2, g3.trans h3⟩

theorem binaryFold_at_key (l : List String) (cmap : List (String × String))
    (st : EncState) (ck : String) (col : List Cell) (hnd : l.Nodup)
    (hmem : ck ∈ l) (hcol : getCol st.df ck = some col) :
    getCol ((l.foldl (fun s k => binaryStep cmap s k) st)).df ck =
      some (col.map binEncCell) ∧
    alistGet ((l.foldl (fun s k => binaryStep cmap s k) st)).codebook ck =
      some { questionText := (alistGet cmap ck).getD "N/A"
             encoderType := "Binary"
             valueMap := binaryValueMap } ∧
    alistGet ((l.foldl (fun s k => binaryStep cmap s k) st)).learned ck =
      some binaryValueMap := by
  induction l generalizing st col with
  | nil => cases hmem
  | cons k rest ih =>
    simp only [List.foldl_cons]
    rcases List.mem_cons.mp hmem with rfl | hmem2
    · have hrest : ∀ q ∈ rest, q ≠ ck := fun q hq => by
        intro hqe
        exact (List.nodup_cons.mp hnd).1 (hqe ▸ hq)
      obtain ⟨b1, b2, b3⟩ := binaryStep_at_key st ck cmap col hcol
      obtain ⟨g1, g2, g3⟩ := binaryFold_preserves rest cmap (binaryStep cmap st ck) ck hrest
      exact ⟨g1.trans b1, g2.trans b2, g3.trans b3⟩
    · have hkck : k ≠ ck := fun hqe => by
        exact (List.nodup_cons.mp hnd).1 (hqe ▸ hmem2)
      obtain ⟨h1, _, _⟩ := binaryStep_preserves_ne st k ck cmap hkck
      exact ih (binaryStep cmap st k) col (List.nodup_cons.mp hnd).2 hmem2
        (h1.trans hcol)

theorem nominalFold_preserves (l : List String) (cmap : List (String × String))
    (st : EncState) (ck : String) (h : ∀ k ∈ l, k ≠ ck) :
    getCol ((l.foldl (fun s k => nominalStep cmap s k) st)).df ck =
      getCol st.df ck ∧
    alistGet ((l.foldl (fun s k => nominalStep cmap s k) st)).codebook ck =
      alistGet st.codebook ck ∧
    alistGet ((l.foldl (fun s k => nominalStep cmap s k) st)).learned ck =
      alistGet st.learned ck := by
  induction l generalizing st with
  | nil => exact ⟨rfl, rfl, rfl⟩
  | cons k rest ih =>
    simp only [List.foldl_cons]
    obtain ⟨h1, h2, h3⟩ :=
      nominalStep_preserves_ne st k ck cmap (h k (List.mem_cons_self _ _))
    obtain ⟨g1, g2, g3⟩ := ih (nominalStep cmap st k)
      fun q hq => h q (List.mem_cons_of_mem _ hq)
    exact ⟨g1.trans h1, g2.trans h2, g3.trans h3⟩

theorem multiFold_preserves (l : List (String × List String))
    (cmap : List (String × String)) (st : EncState) (ck : String) (v : List Cell)
    (h : ∀ p ∈ l, p.1 ≠ ck ∧ ∀ cat ∈ p.2, sanitizedName p.1 cat ≠ ck)
    (hv : getCol st.df ck = some v) :
    getCol ((l.foldl (fun s p => multiStep cmap s p.1 p.2) st)).df ck = some v ∧
    alistGet ((l.foldl (fun s p => multiStep cmap s p.1 p.2) st)).codebook ck =
      alistGet st.codebook ck ∧
    ((l.foldl (fun s p => multiStep cmap s p.1 p.2) st)).learned = st.learned := by
  induction l generalizing st with
  | nil => exact ⟨hv, rfl, rfl⟩
  | cons p rest ih =>
    simp only [List.foldl_cons]
    obtain ⟨hne, hnames⟩ := h p (List.mem_cons_self _ _)
    obtain ⟨h1, h2, h3⟩ := multiStep_preserves_ne st p.1 ck p.2 cmap v hne hnames hv
    obtain ⟨g1, g2, g3⟩ := ih (multiStep cmap st p.1 p.2)
      (fun q hq => h q (List.mem_cons_of_mem _ hq)) h1
    exact ⟨g1, g2.trans h2, g3.trans h3⟩

end Encoder

/-- Witness for C1: a concrete Likert column with one unmappable value yields
exactly one warning listing it. -/
theorem C1_smart_mapping_witness :
    (Encoder.performSmartMapping
      { df := [("q1", [Encoder.Cell.strv "Yes", Encoder.Cell.strv "Maybe",
                       Encoder.Cell.na])],
        codebook := [], warnings := [], learned := [] }
      "q1" [("yes", 1), ("no", 0)] "Likert" [("q1", "Question one")]).warnings =
    [⟨"q1", ["Maybe"]⟩] :=
  ((C1_smart_mapping
      { df := [("q1", [Encoder.Cell.strv "Yes", Encoder.Cell.strv "Maybe",
                       Encoder.Cell.na])],
        codebook := [], warnings := [], learned := [] }
      "q1" [("yes", 1), ("no", 0)] "Likert" [("q1", "Question one")]
      [Encoder.Cell.strv "Yes", Encoder.Cell.strv "Maybe", Encoder.Cell.na]
      (by decide)).2.2).trans (by decide)

open Encoder in
/-- C9: after `DataEncoder.encode`, a Binary-configured column present in the
dataframe (and configured under no other prototype bucket, as the relational
schema assigns one definition per column) contains only the integers 0 and 1:
a cell becomes 1 exactly when its normalized text is one of yes, true, 1, y,
and every other cell becomes 0 (a missing value normalizes to the string nan);
the fixed value map is recorded in the codebook and the learned maps, and the
binary pass never appends a warning. -/
theorem C9_binary_encoding (df : EDf) (cfg : EncoderConfig) (ck : String)
    (col : List Cell) (hcol : getCol df ck = some col)
    (hB : ck ∈ cfg.binary) (hBnd : cfg.binary.Nodup)
    (hL : ∀ p ∈ cfg.likert, p.1 ≠ ck)
    (hO : ∀ p ∈ cfg.ordinal, p.1 ≠ ck)
    (hN : ∀ k ∈ cfg.nominal, k ≠ ck)
    (hM : ∀ p ∈ cfg.nominalMulti, p.1 ≠ ck ∧
      ∀ cat ∈ p.2, sanitizedName p.1 cat ≠ ck) :
    (getCol (encode df cfg).df ck =
      some (col.map fun c =>
        if positiveVals.contains (normCellStr c) then Cell.natv 1
        else Cell.natv 0)) ∧
    (∀ x ∈ col.map binEncCell, x = Cell.natv 0 ∨ x = Cell.natv 1) ∧
    normCellStr Cell.na = "nan" ∧
    (alistGet (encode df cfg).codebook ck =
      some { questionText := (alistGet cfg.columnMap ck).getD "N/A"
             encoderType := "Binary"
             valueMap := binaryValueMap }) ∧
    (alistGet (encode df cfg).learned ck = some binaryValueMap) ∧
    (∀ st : EncState, (binaryPass cfg st).warnings = st.warnings) := by
  have hzero : ∀ x ∈ col.map binEncCell, x = Cell.natv 0 ∨ x = Cell.natv 1 := by
    intro x hx
    obtain ⟨c, _, rfl⟩ := List.mem_map.mp hx
    unfold binEncCell
    split
    · exact Or.inr rfl
    · exact Or.inl rfl
  have hwar : ∀ st : EncState, (binaryPass cfg st).warnings = st.warnings :=
    fun st => binaryFold_warnings cfg.binary cfg.columnMap st
  unfold encode likertPass ordinalPass binaryPass nominalPass multiPass
  set st0 : EncState :=
    { df := df, codebook := [], warnings := [], learned := [] } with hst0
  obtain ⟨l1, _, _⟩ := likertFold_preserves cfg.likert cfg.columnMap st0 ck hL
  obtain ⟨o1, _, _⟩ := ordinalFold_preserves cfg.ordinal cfg.columnMap
    (cfg.likert.foldl (fun s p => likertStep cfg.columnMap s p.1 p.2) st0) ck hO
  have hcol2 : getCol (cfg.ordinal.foldl (fun s p => ordinalStep cfg.columnMap s p.1 p.2)
      (cfg.likert.foldl (fun s p => likertStep cfg.columnMap s p.1 p.2) st0)).df ck =
      some col := by
    rw [o1, l1]; exact hcol
  obtain ⟨b1, b2, b3⟩ := binaryFold_at_key cfg.binary cfg.columnMap _ ck col hBnd hB hcol2
  obtain ⟨n1, n2, n3⟩ := nominalFold_preserves cfg.nominal cfg.columnMap
    (cfg.binary.foldl (fun s k => binaryStep cfg.columnMap s k) _) ck hN
  obtain ⟨m1, m2, m3⟩ := multiFold_preserves cfg.nominalMulti cfg.columnMap _ ck
    (col.map binEncCell) hM (n1.trans b1)
  refine ⟨?_, hzero, rfl, ?_, ?_, hwar⟩
  · exact m1
  · exact m2.trans (n2.trans b2)
  · rw [m3]; exact n3.trans b3

open Encoder in
/-- Witness for C9 at a one-column dataframe configured as Binary. -/
theorem C9_binary_encoding_witness :
    alistGet (encode [("b1", [Cell.strv "y", Cell.na])]
      { likert := [], ordinal := [], binary := ["b1"], nominal := [],
        nominalMulti := [], columnMap := [] }).learned "b1" =
    some binaryValueMap :=
  (C9_binary_encoding [("b1", [Cell.strv "y", Cell.na])]
    { likert := [], ordinal := [], binary := ["b1"], nominal := [],
      nominalMulti := [], columnMap := [] }
    "b1" [Cell.strv "y", Cell.na] (by decide) (by decide) (by decide)
    (by simp) (by simp) (by simp) (by simp)).2.2.2.2.1

theorem alistGet_filter_self [DecidableEq κ] (m : List (κ × α)) (k : κ) :
    alistGet (m.filter fun p => decide (p.1 ≠ k)) k = none := by
  induction m with
  | nil => rfl
  | cons p rest ih =>
    obtain ⟨pk, pv⟩ := p
    by_cases hp : pk = k
    · simpa [hp] using ih
    · simpa [alistGet, hp] using ih

namespace Manager

theorem deleteEncoderDefinition_reduce (st : DbState) (d : Nat)
    (defn : DefRecord) (hdef : lookupDef st.definitions d = some defn) :
    deleteEncoderDefinition st d =
      if (st.columns.filter fun c => decide (c.defId = some d)).length > 0 then
        (st, some (.inUse ("Cannot delete definition " ++ defn.name ++
          " because it is currently assigned to columns. Please unassign it first.")))
      else
        ({ st with definitions := st.definitions.filter fun p => decide (p.1 ≠ d) },
          none) := by
  unfold deleteEncoderDefinition
  rw [hdef]

end Manager

open Manager in
/-- C10: `delete_encoder_definition` on an existing definition raises a
ValueError exactly when at least one column is assigned to it, leaving the
database unchanged in that case; with no referencing column the definition is
deleted from the database. -/
theorem C10_delete_definition (st : DbState) (definitionId : Nat)
    (defn : DefRecord)
    (hdef : lookupDef st.definitions definitionId = some defn) :
    ((∃ m, (deleteEncoderDefinition st definitionId).2 = some (DelErr.inUse m)) ↔
      0 < (st.columns.filter fun c => decide (c.defId = some definitionId)).length) ∧
    (0 < (st.columns.filter fun c => decide (c.defId = some definitionId)).length →
      (deleteEncoderDefinition st definitionId).1 = st) ∧
    ((st.columns.filter fun c => decide (c.defId = some definitionId)).length = 0 →
      (deleteEncoderDefinition st definitionId).2 = none ∧
      (deleteEncoderDefinition st definitionId).1.columns = st.columns ∧
      lookupDef (deleteEncoderDefinition st definitionId).1.definitions
        definitionId = none) := by
  rw [deleteEncoderDefinition_reduce st definitionId defn hdef]
  by_cases hcount :
      0 < (st.columns.filter fun c => decide (c.defId = some definitionId)).length
  · rw [if_pos hcount]
    exact ⟨⟨fun _ => hcount, fun _ => ⟨_, rfl⟩⟩, fun _ => rfl,
      fun hz => absurd hz (by omega)⟩
  · rw [if_neg hcount]
    refine ⟨⟨?_, fun hp => absurd hp hcount⟩, fun hp => absurd hp hcount,
      fun _ => ⟨rfl, rfl, ?_⟩⟩
    · rintro ⟨m, hm⟩
      cases hm
    · exact alistGet_filter_self st.definitions definitionId

open Manager in
/-- Witness for C10: an unreferenced definition is deleted without error. -/
theorem C10_delete_definition_witness :
    (deleteEncoderDefinition
      { definitions := [(1, { name := "d1", valueMap := [] })],
        columns := [{ columnKey := "q1", defId := none }] } 1).2 = none ∧
    lookupDef (deleteEncoderDefinition
      { definitions := [(1, { name := "d1", valueMap := [] })],
        columns := [{ columnKey := "q1", defId := none }] } 1).1.definitions 1 =
      none := by
  have h := C10_delete_definition
    { definitions := [(1, { name := "d1", valueMap := [] })],
      columns := [{ columnKey := "q1", defId := none }] } 1
    { name := "d1", valueMap := [] } (by decide)
  exact ⟨(h.2.2 (by decide)).1, (h.2.2 (by decide)).2.2⟩

open Bootstrap in
/-- C7: `DataBootstrapper.bootstrap` returns a frame with exactly `new_size`
rows and the original columns, every returned row is a row of the original,
the original frame is left unchanged, and a `ValueError` is raised when no
original data is loaded. -/
theorem C7_bootstrap (st : BootState) (n : Nat) (pick : Nat → Nat) :
    (∀ odf, st.original = some odf → (∀ i, i < n → pick i < odf.rows.length) →
      ∃ sdf st2, bootstrap st n pick = .ok (sdf, st2) ∧
        sdf.cols = odf.cols ∧ sdf.rows.length = n ∧
        (∀ r ∈ sdf.rows, r ∈ odf.rows) ∧
        st2.original = st.original ∧ st2.simulated = some sdf) ∧
    (st.original = none →
      bootstrap st n pick = .error "Original data not loaded.") := by
  constructor
  · intro odf horig hpick
    refine ⟨sampleRows odf n pick, { st with simulated := some (sampleRows odf n pick) },
      by unfold bootstrap; rw [horig], rfl, by simp [sampleRows], ?_, rfl, rfl⟩
    intro r hr
    obtain ⟨i, hi, rfl⟩ := List.mem_map.mp hr
    have hilt : pick i < odf.rows.length := hpick i (List.mem_range.mp hi)
    rw [List.getD_eq_getElem odf.rows [] hilt]
    exact List.getElem_mem hilt
  · intro horig
    unfold bootstrap
    rw [horig]

/-- The concrete two-row frame used by the bootstrap witnesses. -/
def witnessFrame : Bootstrap.BDf :=
  { cols := ["q1"], rows := [[Encoder.Cell.natv 1], [Encoder.Cell.natv 2]] }

/-- The concrete bootstrapper state used by the bootstrap witnesses. -/
def witnessBootState : Bootstrap.BootState :=
  { original := some witnessFrame, simulated := none,
    questionMap := [("q1", "Question")] }

open Bootstrap in
/-- Witness for C7 on a concrete two-row frame sampled to three rows. -/
theorem C7_bootstrap_witness :
    ∃ sdf st2,
      bootstrap witnessBootState 3 (fun i => i % 2) = .ok (sdf, st2) ∧
      sdf.cols = witnessFrame.cols ∧ sdf.rows.length = 3 ∧
      (∀ r ∈ sdf.rows, r ∈ witnessFrame.rows) ∧
      st2.original = witnessBootState.original ∧ st2.simulated = some sdf := by
  obtain ⟨sdf, st2, h1, h2, h3, h4, h5, h6⟩ :=
    (C7_bootstrap witnessBootState 3 (fun i => i % 2)).1 witnessFrame rfl
      (by intro i _; exact Nat.mod_lt i (by omega))
  exact ⟨sdf, st2, h1, h2, h3, h4, h5, h6⟩

namespace Bootstrap

theorem colIdx_isSome_of_mem (l : List String) (c : String) (h : c ∈ l) :
    (colIdx l c).isSome := by
  induction l with
  | nil => cases h
  | cons a rest ih =>
    by_cases hac : a = c
    · simp [colIdx, hac]
    · have hcr : c ∈ rest := by
        rcases List.mem_cons.mp h with h1 | h1
        · exact absurd h1.symm hac
        · exact h1
      obtain ⟨i, hi⟩ := Option.isSome_iff_exists.mp (ih hcr)
      simp [colIdx, hac, hi]

theorem colIdx_none_of_nil (c : String) : colIdx [] c = none := rfl

theorem getD_map_colIdx (l : List String) (f : String → Encoder.Cell) (c : String)
    (hc : c ∈ l) :
    (l.map f).getD ((colIdx l c).getD 0) Encoder.Cell.na = f c := by
  induction l with
  | nil => cases hc
  | cons a rest ih =>
    by_cases hac : a = c
    · subst hac
      simp [colIdx]
    · have hcr : c ∈ rest := by
        rcases List.mem_cons.mp hc with h1 | h1
        · exact absurd h1.symm hac
        · exact h1
      obtain ⟨i, hi⟩ := Option.isSome_iff_exists.mp (colIdx_isSome_of_mem rest c hcr)
      have ihr := ih hcr
      rw [hi] at ihr
      simp only [colIdx, if_neg hac, hi, Option.map_some, Option.getD_some,
        List.map_cons, List.getD_cons_succ]
      simpa using ihr

theorem getCell_of_map (l : List String) (f : String → Encoder.Cell) (c : String)
    (hc : c ∈ l) : getCell l (l.map f) c = f c :=
  getD_map_colIdx l f c hc

theorem selfProj (cols : List String) (r : List Encoder.Cell) (hnd : cols.Nodup)
    (hlen : r.length = cols.length) : cols.map (getCell cols r) = r := by
  induction cols generalizing r with
  | nil =>
    cases r with
    | nil => rfl
    | cons x xs => simp at hlen
  | cons a rest ih =>
    cases r with
    | nil => simp at hlen
    | cons x xs =>
      have hlen2 : xs.length = rest.length := by simpa using hlen
      have hanotin : a ∉ rest := (List.nodup_cons.mp hnd).1
      have hhead : getCell (a :: rest) (x :: xs) a = x := by
        simp [getCell, colIdx]
      have htail : rest.map (getCell (a :: rest) (x :: xs)) =
          rest.map (getCell rest xs) := by
        refine List.map_congr_left fun c hc => ?_
        have hac : ¬ a = c := fun he => hanotin (he ▸ hc)
        obtain ⟨i, hi⟩ :=
          Option.isSome_iff_exists.mp (colIdx_isSome_of_mem rest c hc)
        simp [getCell, colIdx, hac, hi]
      simp only [List.map_cons, hhead, htail,
        ih xs (List.nodup_cons.mp hnd).2 hlen2]

theorem reassemble (cols front slice back : List String) (r : List Encoder.Cell)
    (hnd : cols.Nodup) (hlen : r.length = cols.length)
    (hpart : cols = front ++ slice ++ back) :
    cols.map (getCell ((front ++ back) ++ slice)
      (((front ++ back) ++ slice).map (getCell cols r))) = r := by
  have hmem : ∀ c ∈ cols, c ∈ (front ++ back) ++ slice := by
    intro c hc
    rw [hpart] at hc
    simp only [List.mem_append] at hc ⊢
    tauto
  calc cols.map (getCell ((front ++ back) ++ slice)
        (((front ++ back) ++ slice).map (getCell cols r)))
      = cols.map (getCell cols r) :=
        List.map_congr_left fun c hc =>
          getCell_of_map _ (getCell cols r) c (hmem c hc)
    _ = r := selfProj cols r hnd hlen

theorem zipWith_map_same (l : List γ) (op : α → β → δ) (f : γ → α) (g : γ → β) :
    List.zipWith op (l.map f) (l.map g) = l.map fun x => op (f x) (g x) := by
  induction l with
  | nil => rfl
  | cons a rest ih => simp [ih]

end Bootstrap

namespace Bootstrap

theorem sampleRows_proj_rows (odf : BDf) (sel : List String) (n : Nat)
    (pick : Nat → Nat) (hpick : ∀ k, k < n → pick k < odf.rows.length) :
    (sampleRows (colProj odf sel) n pick).rows =
      (List.range n).map fun k =>
        sel.map (getCell odf.cols (odf.rows.getD (pick k) [])) := by
  unfold sampleRows colProj
  refine List.map_congr_left fun k hk => ?_
  have hklt : pick k < odf.rows.length := hpick k (List.mem_range.mp hk)
  rw [List.getD_eq_getElem _ [] (by simpa using hklt), List.getElem_map,
    List.getD_eq_getElem _ [] hklt]

theorem bdfExt (a b : BDf) (hc : a.cols = b.cols) (hr : a.rows = b.rows) :
    a = b := by
  cases a; cases b; cases hc; cases hr; rfl

theorem remix_core (odf : BDf) (n i j : Nat) (pick : Nat → Nat)
    (allCols : List String)
    (hcols : odf.cols = allCols) (hnd : allCols.Nodup) (hij : i ≤ j)
    (hlen : ∀ r ∈ odf.rows, r.length = allCols.length)
    (hpick : ∀ k, k < n → pick k < odf.rows.length) :
    colProj
      (if (allCols.take i ++ allCols.drop (j + 1)).isEmpty
       then sampleRows (colProj odf ((allCols.drop i).take (j + 1 - i))) n pick
       else concatCols
         (sampleRows (colProj odf (allCols.take i ++ allCols.drop (j + 1))) n pick)
         (sampleRows (colProj odf ((allCols.drop i).take (j + 1 - i))) n pick))
      allCols = sampleRows odf n pick := by
  have hpart : allCols = allCols.take i ++ (allCols.drop i).take (j + 1 - i) ++
      allCols.drop (j + 1) := by
    have h1 : allCols = allCols.take i ++ allCols.drop i :=
      (List.take_append_drop i allCols).symm
    have h2 : allCols.drop i = (allCols.drop i).take (j + 1 - i) ++
        (allCols.drop i).drop (j + 1 - i) :=
      (List.take_append_drop (j + 1 - i) (allCols.drop i)).symm
    have h3 : (allCols.drop i).drop (j + 1 - i) = allCols.drop (j + 1) := by
      rw [List.drop_drop]
      congr 1
      omega
    rw [List.append_assoc, ← h3, ← h2, ← h1]
  have hrowlen : ∀ k, k < n → (odf.rows.getD (pick k) []).length = allCols.length := by
    intro k hk
    have hklt : pick k < odf.rows.length := hpick k hk
    rw [List.getD_eq_getElem _ [] hklt]
    exact hlen _ (List.getElem_mem hklt)
  by_cases hfe : (allCols.take i ++ allCols.drop (j + 1)).isEmpty
  · rw [if_pos hfe]
    obtain ⟨hta, hdr⟩ := List.append_eq_nil.mp (List.isEmpty_iff.mp hfe)
    have hpart0 : allCols = [] ++ (allCols.drop i).take (j + 1 - i) ++ [] := by
      simpa [hta, hdr] using hpart
    refine bdfExt _ _ hcols.symm ?_
    rw [show (colProj (sampleRows (colProj odf ((allCols.drop i).take (j + 1 - i))) n pick)
        allCols).rows =
        ((sampleRows (colProj odf ((allCols.drop i).take (j + 1 - i))) n pick).rows).map
          (fun r => allCols.map (getCell ((allCols.drop i).take (j + 1 - i)) r)) from rfl]
    rw [sampleRows_proj_rows odf _ n pick hpick]
    rw [show (sampleRows odf n pick).rows =
        (List.range n).map (fun k => odf.rows.getD (pick k) []) from rfl]
    rw [List.map_map]
    refine List.map_congr_left fun k hk => ?_
    simp only [Function.comp]
    have hre := reassemble allCols [] ((allCols.drop i).take (j + 1 - i)) []
      (odf.rows.getD (pick k) []) hnd (hrowlen k (List.mem_range.mp hk)) hpart0
    rw [hcols]
    simpa using hre
  · rw [if_neg hfe]
    refine bdfExt _ _ hcols.symm ?_
    rw [show (colProj (concatCols
        (sampleRows (colProj odf (allCols.take i ++ allCols.drop (j + 1))) n pick)
        (sampleRows (colProj odf ((allCols.drop i).take (j + 1 - i))) n pick))
        allCols).rows =
        (List.zipWith (fun a b => a ++ b)
          (sampleRows (colProj odf (allCols.take i ++ allCols.drop (j + 1))) n pick).rows
          (sampleRows (colProj odf ((allCols.drop i).take (j + 1 - i))) n pick).rows).map
          (fun r => allCols.map
            (getCell ((allCols.take i ++ allCols.drop (j + 1)) ++
              (allCols.drop i).take (j + 1 - i)) r)) from rfl]
    rw [sampleRows_proj_rows odf _ n pick hpick,
      sampleRows_proj_rows odf _ n pick hpick]
    rw [zipWith_map_same]
    rw [show (sampleRows odf n pick).rows =
        (List.range n).map (fun k => odf.rows.getD (pick k) []) from rfl]
    rw [List.map_map]
    refine List.map_congr_left fun k hk => ?_
    simp only [Function.comp]
    have hre := reassemble allCols (allCols.take i)
      ((allCols.drop i).take (j + 1 - i)) (allCols.drop (j + 1))
      (odf.rows.getD (pick k) []) hnd (hrowlen k (List.mem_range.mp hk)) hpart
    rw [hcols, ← List.map_append]
    exact hre

end Bootstrap

open Bootstrap in
theorem C8_remix_equals_bootstrap (st : BootState) (n : Nat) (s e : String)
    (pick : Nat → Nat) (odf : BDf) (i j : Nat)
    (horig : st.original = some odf)
    (hcols : odf.cols = st.questionMap.map Prod.fst)
    (hnd : (st.questionMap.map Prod.fst).Nodup)
    (hsi : colIdx (st.questionMap.map Prod.fst) s = some i)
    (hei : colIdx (st.questionMap.map Prod.fst) e = some j)
    (hij : i ≤ j)
    (hlen : ∀ r ∈ odf.rows, r.length = (st.questionMap.map Prod.fst).length)
    (hpick : ∀ k, k < n → pick k < odf.rows.length) :
    bootstrapRemix st n s e pick = bootstrap st n pick := by
  have hqm : st.questionMap.isEmpty = false := by
    cases hq : st.questionMap with
    | nil => rw [hq] at hsi; cases hsi
    | cons a rest => rfl
  have hne : ¬ i > j := by omega
  unfold bootstrapRemix bootstrap
  rw [horig]
  simp only [hqm, Bool.false_eq_true, if_false, hsi, hei]
  rw [if_neg hne]
  rw [remix_core odf n i j pick (st.questionMap.map Prod.fst) hcols hnd hij hlen hpick]

/-- The three-column frame used by the remix witness. -/
def witnessFrame3 : Bootstrap.BDf :=
  { cols := ["q1", "q2", "q3"],
    rows := [[Encoder.Cell.natv 1, Encoder.Cell.natv 2, Encoder.Cell.natv 3],
             [Encoder.Cell.natv 4, Encoder.Cell.natv 5, Encoder.Cell.natv 6]] }

/-- The bootstrapper state used by the remix witness. -/
def witnessBootState3 : Bootstrap.BootState :=
  { original := some witnessFrame3, simulated := none,
    questionMap := [("q1", "A"), ("q2", "B"), ("q3", "C")] }

open Bootstrap in
/-- Witness for C8 at a three-column frame remixing the middle column. -/
theorem C8_remix_equals_bootstrap_witness :
    bootstrapRemix witnessBootState3 2 "q2" "q2" (fun k => k % 2) =
    bootstrap witnessBootState3 2 (fun k => k % 2) :=
  C8_remix_equals_bootstrap witnessBootState3 2 "q2" "q2" (fun k => k % 2)
    witnessFrame3 1 1 rfl (by decide) (by decide) (by decide) (by decide)
    (by omega) (by decide) (fun k _ => by
      show k % 2 < witnessFrame3.rows.length
      have : k % 2 < 2 := Nat.mod_lt k (by omega)
      simpa [witnessFrame3] using this)

/-! ## Dictionary-rebuild lemmas for the value-map comparison -/

theorem dictInsert_ne_nil [DecidableEq κ] (m : List (κ × α)) (k : κ) (v : α) :
    dictInsert m k v ≠ [] := by
  cases m with
  | nil => simp [dictInsert]
  | cons q rest =>
    by_cases hq : q.1 = k <;> simp [dictInsert, hq]

theorem dictBuild_append_single [DecidableEq κ] (l : List (κ × α)) (p : κ × α) :
    dictBuild (l ++ [p]) = dictInsert (dictBuild l) p.1 p.2 := by
  unfold dictBuild
  rw [List.foldl_append]
  rfl

theorem dictBuild_ne_nil [DecidableEq κ] (l : List (κ × α)) (hl : l ≠ []) :
    dictBuild l ≠ [] := by
  induction l using List.reverseRecOn with
  | nil => exact absurd rfl hl
  | append_singleton front p _ =>
    rw [dictBuild_append_single]
    exact dictInsert_ne_nil _ _ _

theorem mem_keys_dictInsert [DecidableEq κ] (m : List (κ × α)) (k x : κ) (v : α)
    (hx : x ∈ (dictInsert m k v).map Prod.fst) :
    x = k ∨ x ∈ m.map Prod.fst := by
  induction m with
  | nil =>
    simp [dictInsert] at hx
    exact Or.inl hx
  | cons r rest ih =>
    by_cases hr : r.1 = k
    · simp only [dictInsert, if_pos hr, List.map_cons, List.mem_cons] at hx
      rcases hx with rfl | hx
      · exact Or.inl rfl
      · exact Or.inr (by simp only [List.map_cons, List.mem_cons]; exact Or.inr hx)
    · simp only [dictInsert, if_neg hr, List.map_cons, List.mem_cons] at hx
      rcases hx with rfl | hx
      · exact Or.inr (by simp)
      · rcases ih hx with h | h
        · exact Or.inl h
        · exact Or.inr (by simp only [List.map_cons, List.mem_cons]; exact Or.inr h)

theorem mem_keys_dictBuild [DecidableEq κ] (l : List (κ × α)) (x : κ)
    (hx : x ∈ (dictBuild l).map Prod.fst) : x ∈ l.map Prod.fst := by
  induction l using List.reverseRecOn with
  | nil => cases hx
  | append_singleton front p ih =>
    rw [dictBuild_append_single] at hx
    rcases mem_keys_dictInsert _ _ _ _ hx with h | h
    · simp [h]
    · simpa using Or.inl (ih h)

theorem keys_dictInsert_of_mem [DecidableEq κ] (m : List (κ × α)) (k : κ) (v : α)
    (hk : k ∈ m.map Prod.fst) :
    (dictInsert m k v).map Prod.fst = m.map Prod.fst := by
  induction m with
  | nil => cases hk
  | cons r rest ih =>
    by_cases hr : r.1 = k
    · simp [dictInsert, hr]
    · have hk2 : k ∈ rest.map Prod.fst := by
        rw [List.map_cons] at hk
        rcases List.mem_cons.mp hk with h | h
        · exact absurd h.symm hr
        · exact h
      simp [dictInsert, hr, ih hk2]

theorem dictInsert_of_not_mem [DecidableEq κ] (m : List (κ × α)) (k : κ) (v : α)
    (hk : k ∉ m.map Prod.fst) : dictInsert m k v = m ++ [(k, v)] := by
  induction m with
  | nil => rfl
  | cons r rest ih =>
    have hr : ¬ r.1 = k := fun he => hk (by simp [he])
    have hk2 : k ∉ rest.map Prod.fst := fun hmem => hk (by simp [hmem])
    simp [dictInsert, hr, ih hk2]

theorem keysNodup_dictInsert [DecidableEq κ] (m : List (κ × α)) (k : κ) (v : α)
    (hnd : (m.map Prod.fst).Nodup) :
    ((dictInsert m k v).map Prod.fst).Nodup := by
  by_cases hk : k ∈ m.map Prod.fst
  · rw [keys_dictInsert_of_mem m k v hk]
    exact hnd
  · rw [dictInsert_of_not_mem m k v hk]
    rw [List.map_append]
    simp only [List.map_cons, List.map_nil]
    refine List.Nodup.append hnd (List.nodup_singleton k) ?_
    intro x hx hk2
    simp only [List.mem_singleton] at hk2
    subst hk2
    exact hk hx

theorem keysNodup_dictBuild [DecidableEq κ] (l : List (κ × α)) :
    ((dictBuild l).map Prod.fst).Nodup := by
  induction l using List.reverseRecOn with
  | nil => exact List.nodup_nil
  | append_singleton front p ih =>
    rw [dictBuild_append_single]
    exact keysNodup_dictInsert _ _ _ ih

theorem dictBuild_of_keysNodup [DecidableEq κ] (m : List (κ × α))
    (hnd : (m.map Prod.fst).Nodup) : dictBuild m = m := by
  induction m using List.reverseRecOn with
  | nil => rfl
  | append_singleton front p ih =>
    rw [List.map_append] at hnd
    have h3 := List.nodup_append.mp hnd
    have hfr : (front.map Prod.fst).Nodup := h3.1
    have hpn : p.1 ∉ front.map Prod.fst := by
      intro hmem
      exact h3.2.2 hmem (by simp)
    rw [dictBuild_append_single, ih hfr, dictInsert_of_not_mem _ _ _ hpn]

theorem dictBuild_idem [DecidableEq κ] (l : List (κ × α)) :
    dictBuild (dictBuild l) = dictBuild l :=
  dictBuild_of_keysNodup _ (keysNodup_dictBuild l)

namespace Manager

theorem dictInsert_map_toStr (m : List (JKey × String)) (s v : String)
    (hm : ∀ x ∈ m.map Prod.fst, ∃ t, x = JKey.jstr t) :
    (dictInsert m (JKey.jstr s) v).map (fun p => (p.1.toStr, p.2)) =
      dictInsert (m.map fun p => (p.1.toStr, p.2)) s v := by
  induction m with
  | nil => rfl
  | cons q rest ih =>
    obtain ⟨t, ht⟩ := hm q.1 (by simp)
    by_cases hq : q.1 = JKey.jstr s
    · have hqs : q.1.toStr = s := by rw [hq]; rfl
      simp [dictInsert, hq, hqs, JKey.toStr]
    · have hts : ¬ q.1.toStr = s := by
        rw [ht]
        intro he
        rw [show (JKey.jstr t).toStr = t from rfl] at he
        exact hq (by rw [ht, he])
      simp only [dictInsert, if_neg hq, List.map_cons, if_neg hts]
      rw [ih fun x hx => hm x (by simp only [List.map_cons, List.mem_cons]; exact Or.inr hx)]

theorem dictBuild_map_toStr (l : List (JKey × String))
    (hl : ∀ x ∈ l.map Prod.fst, ∃ t, x = JKey.jstr t) :
    (dictBuild l).map (fun p => (p.1.toStr, p.2)) =
      dictBuild (l.map fun p => (p.1.toStr, p.2)) := by
  induction l using List.reverseRecOn with
  | nil => rfl
  | append_singleton front p ih =>
    obtain ⟨s, hs⟩ := hl p.1 (by simp)
    have hfr : ∀ x ∈ front.map Prod.fst, ∃ t, x = JKey.jstr t := fun x hx =>
      hl x (by rw [List.map_append, List.mem_append]; exact Or.inl hx)
    have hbu : ∀ x ∈ (dictBuild front).map Prod.fst, ∃ t, x = JKey.jstr t :=
      fun x hx => hfr x (mem_keys_dictBuild front x hx)
    rw [dictBuild_append_single]
    rw [show dictInsert (dictBuild front) p.1 p.2 =
      dictInsert (dictBuild front) (JKey.jstr s) p.2 from by rw [← hs]]
    rw [dictInsert_map_toStr _ s p.2 hbu, ih hfr, List.map_append]
    rw [show (([p] : List (JKey × String)).map fun q => (q.1.toStr, q.2)) =
      [(s, p.2)] from by simp [hs, JKey.toStr]]
    rw [dictBuild_append_single]

theorem strItems_jsonKeys (m : ValueMap) : strItems (jsonKeys m) = strItems m := by
  unfold strItems jsonKeys
  have hjk : ∀ x ∈ (m.map fun p => (JKey.jstr p.1.toStr, p.2)).map Prod.fst,
      ∃ t, x = JKey.jstr t := by
    intro x hx
    rw [List.map_map] at hx
    obtain ⟨q, _, rfl⟩ := List.mem_map.mp hx
    exact ⟨q.1.toStr, rfl⟩
  rw [dictBuild_map_toStr _ hjk, dictBuild_idem]
  congr 1
  rw [List.map_map]
  rfl

theorem sortedStrItems_jsonKeys (m : ValueMap) :
    sortedStrItems (jsonKeys m) = sortedStrItems m := by
  unfold sortedStrItems
  rw [strItems_jsonKeys]

theorem jsonKeys_ne_nil (m : ValueMap) (hm : m ≠ []) : jsonKeys m ≠ [] := by
  unfold jsonKeys
  refine dictBuild_ne_nil _ ?_
  simpa using hm

end Manager

/-! ## Manager lemmas and claim theorems C2, C3 -/

namespace Manager

theorem lookupDef_setDefMap_ne (defs : List (Nat × DefRecord)) (d' d : Nat)
    (m : ValueMap) (h : d ≠ d') :
    lookupDef (setDefMap defs d' m) d = lookupDef defs d := by
  induction defs with
  | nil => rfl
  | cons p rest ih =>
    obtain ⟨pk, pd⟩ := p
    by_cases hp : pk = d'
    · subst hp
      simp [setDefMap, lookupDef, alistGet, h.symm] at ih ⊢
      exact ih
    · by_cases hpd : pk = d
      · simp [setDefMap, lookupDef, alistGet, hp, hpd, h]
      · simp only [setDefMap, List.map_cons] at ih ⊢
        simp [lookupDef, alistGet, hp, hpd] at ih ⊢
        exact ih

theorem lookupDef_setDefMap_self (defs : List (Nat × DefRecord)) (d : Nat)
    (m : ValueMap) (defn : DefRecord) (h : lookupDef defs d = some defn) :
    lookupDef (setDefMap defs d m) d = some { defn with valueMap := m } := by
  induction defs with
  | nil => cases h
  | cons p rest ih =>
    obtain ⟨pk, pd⟩ := p
    by_cases hp : pk = d
    · subst hp
      simp only [lookupDef, alistGet, if_pos rfl] at h
      injection h with h
      subst h
      simp [setDefMap, lookupDef, alistGet]
    · simp only [lookupDef, alistGet, if_neg hp] at h
      simp only [setDefMap, List.map_cons, if_neg hp]
      simp only [lookupDef, alistGet, if_neg hp]
      exact ih h

theorem lookupDef_setDefMap_none (defs : List (Nat × DefRecord)) (d' d : Nat)
    (m : ValueMap) (h : lookupDef defs d = none) :
    lookupDef (setDefMap defs d' m) d = none := by
  induction defs with
  | nil => rfl
  | cons p rest ih =>
    obtain ⟨pk, pd⟩ := p
    by_cases hp : pk = d
    · simp [lookupDef, alistGet, hp] at h
    · by_cases hp' : pk = d'
      · simp only [lookupDef, alistGet, if_neg hp] at h
        simp only [setDefMap, List.map_cons, if_pos hp']
        simp only [lookupDef, alistGet] at ih ⊢
        rw [if_neg hp]
        exact ih h
      · simp only [lookupDef, alistGet, if_neg hp] at h
        simp only [setDefMap, List.map_cons, if_neg hp']
        simp only [lookupDef, alistGet, if_neg hp]
        exact ih h

end Manager

namespace Manager

theorem updStep_rid_none (cols : List ColRecord) (defs : List (Nat × DefRecord))
    (ck : String) (nm : ValueMap) (h : resolvedId cols ck = none) :
    updStep cols defs ck nm = .ok defs := by
  unfold updStep
  rw [h]

theorem updStep_rid_some (cols : List ColRecord) (defs : List (Nat × DefRecord))
    (ck : String) (nm : ValueMap) (d : Nat) (h : resolvedId cols ck = some d) :
    updStep cols defs ck nm = updApply defs d nm ck := by
  unfold updStep
  rw [h]

theorem updApply_def_none (defs : List (Nat × DefRecord)) (d : Nat)
    (nm : ValueMap) (ck : String) (h : lookupDef defs d = none) :
    updApply defs d nm ck = .ok defs := by
  unfold updApply
  rw [h]

theorem updApply_def_some (defs : List (Nat × DefRecord)) (d : Nat)
    (nm : ValueMap) (ck : String) (defn : DefRecord)
    (h : lookupDef defs d = some defn) :
    updApply defs d nm ck =
      (if defn.valueMap.isEmpty then .ok (setDefMap defs d (jsonKeys nm))
       else if sortedStrItems defn.valueMap = sortedStrItems nm then .ok defs
       else .error ("Incompatible Value Maps for definition " ++ defn.name ++
         " (used by column " ++ ck ++ ").")) := by
  unfold updApply
  rw [h]

theorem updStep_preserves_nonempty (cols : List ColRecord)
    (defs defs₁ : List (Nat × DefRecord)) (ck : String) (nm : ValueMap)
    (d : Nat) (defn : DefRecord)
    (hd : lookupDef defs d = some defn) (hne : ¬ defn.valueMap.isEmpty = true)
    (hstep : updStep cols defs ck nm = .ok defs₁) :
    lookupDef defs₁ d = some defn := by
  cases hr : resolvedId cols ck with
  | none =>
    rw [updStep_rid_none _ _ _ _ hr] at hstep
    injection hstep with h
    subst h
    exact hd
  | some d₁ =>
    rw [updStep_rid_some _ _ _ _ _ hr] at hstep
    cases hld : lookupDef defs d₁ with
    | none =>
      rw [updApply_def_none _ _ _ _ hld] at hstep
      injection hstep with h
      subst h
      exact hd
    | some defn₁ =>
      rw [updApply_def_some _ _ _ _ _ hld] at hstep
      by_cases hemp : defn₁.valueMap.isEmpty
      · rw [if_pos hemp] at hstep
        injection hstep with h
        subst h
        by_cases hdd : d₁ = d
        · subst hdd
          rw [hld] at hd
          injection hd with h2
          subst h2
          exact absurd hemp hne
        · rw [lookupDef_setDefMap_ne _ _ _ _ fun he => hdd he.symm]
          exact hd
      · rw [if_neg hemp] at hstep
        by_cases hsort : sortedStrItems defn₁.valueMap = sortedStrItems nm
        · rw [if_pos hsort] at hstep
          injection hstep with h
          subst h
          exact hd
        · rw [if_neg hsort] at hstep
          cases hstep

theorem updStep_preserves_none (cols : List ColRecord)
    (defs defs₁ : List (Nat × DefRecord)) (ck : String) (nm : ValueMap)
    (d : Nat) (hd : lookupDef defs d = none)
    (hstep : updStep cols defs ck nm = .ok defs₁) :
    lookupDef defs₁ d = none := by
  cases hr : resolvedId cols ck with
  | none =>
    rw [updStep_rid_none _ _ _ _ hr] at hstep
    injection hstep with h
    subst h
    exact hd
  | some d₁ =>
    rw [updStep_rid_some _ _ _ _ _ hr] at hstep
    cases hld : lookupDef defs d₁ with
    | none =>
      rw [updApply_def_none _ _ _ _ hld] at hstep
      injection hstep with h
      subst h
      exact hd
    | some defn₁ =>
      rw [updApply_def_some _ _ _ _ _ hld] at hstep
      by_cases hemp : defn₁.valueMap.isEmpty
      · rw [if_pos hemp] at hstep
        injection hstep with h
        subst h
        exact lookupDef_setDefMap_none _ _ _ _ hd
      · rw [if_neg hemp] at hstep
        by_cases hsort : sortedStrItems defn₁.valueMap = sortedStrItems nm
        · rw [if_pos hsort] at hstep
          injection hstep with h
          subst h
          exact hd
        · rw [if_neg hsort] at hstep
          cases hstep

end Manager

namespace Manager

theorem updGo_cons (cols : List ColRecord) (defs : List (Nat × DefRecord))
    (ck : String) (nm : ValueMap) (rest : List (String × ValueMap)) :
    updGo cols defs ((ck, nm) :: rest) =
      match updStep cols defs ck nm with
      | .ok defs₁ => updGo cols defs₁ rest
      | .error e => .error e := rfl

theorem updGo_preserves_nonempty (lm : List (String × ValueMap))
    (cols : List ColRecord) (defs defs₁ : List (Nat × DefRecord))
    (d : Nat) (defn : DefRecord)
    (hd : lookupDef defs d = some defn) (hne : ¬ defn.valueMap.isEmpty = true)
    (hgo : updGo cols defs lm = .ok defs₁) :
    lookupDef defs₁ d = some defn := by
  induction lm generalizing defs with
  | nil =>
    unfold updGo at hgo
    injection hgo with h
    subst h
    exact hd
  | cons q rest ih =>
    obtain ⟨ck, nm⟩ := q
    rw [updGo_cons] at hgo
    cases hstep : updStep cols defs ck nm with
    | error e => rw [hstep] at hgo; cases hgo
    | ok defs₂ =>
      rw [hstep] at hgo
      exact ih defs₂
        (updStep_preserves_nonempty cols defs defs₂ ck nm d defn hd hne hstep) hgo

theorem updGo_preserves_none (lm : List (String × ValueMap))
    (cols : List ColRecord) (defs defs₁ : List (Nat × DefRecord)) (d : Nat)
    (hd : lookupDef defs d = none) (hgo : updGo cols defs lm = .ok defs₁) :
    lookupDef defs₁ d = none := by
  induction lm generalizing defs with
  | nil =>
    unfold updGo at hgo
    injection hgo with h
    subst h
    exact hd
  | cons q rest ih =>
    obtain ⟨ck, nm⟩ := q
    rw [updGo_cons] at hgo
    cases hstep : updStep cols defs ck nm with
    | error e => rw [hstep] at hgo; cases hgo
    | ok defs₂ =>
      rw [hstep] at hgo
      exact ih defs₂ (updStep_preserves_none cols defs defs₂ ck nm d hd hstep) hgo

/-- The claim's error condition, phrased on the committed state: some column
in the learned maps resolves to a definition whose saved value map is
populated and, compared with stringified keys order-independently, differs
from the learned map for that column. -/
def incompatDef (defs : List (Nat × DefRecord)) (d : Nat) (nm : ValueMap) : Bool :=
  match lookupDef defs d with
  | none => false
  | some defn =>
    !defn.valueMap.isEmpty && !(decide (sortedStrItems defn.valueMap = sortedStrItems nm))

/-- Whether one learned-map entry triggers the incompatibility error. -/
def incompatAt (cols : List ColRecord) (defs : List (Nat × DefRecord))
    (p : String × ValueMap) : Bool :=
  match resolvedId cols p.1 with
  | none => false
  | some d => incompatDef defs d p.2

/-- `savedIncompatible st lm`: the claim's phrasing of when
`update_definition_configurations` is said to raise. -/
def savedIncompatible (st : DbState) (lm : List (String × ValueMap)) : Bool :=
  lm.any (incompatAt st.columns st.definitions)

theorem incompatAt_rid_none (cols : List ColRecord)
    (defs : List (Nat × DefRecord)) (p : String × ValueMap)
    (h : resolvedId cols p.1 = none) : incompatAt cols defs p = false := by
  unfold incompatAt
  rw [h]

theorem incompatAt_rid_some (cols : List ColRecord)
    (defs : List (Nat × DefRecord)) (p : String × ValueMap) (d : Nat)
    (h : resolvedId cols p.1 = some d) :
    incompatAt cols defs p = incompatDef defs d p.2 := by
  unfold incompatAt
  rw [h]

theorem incompatDef_none (defs : List (Nat × DefRecord)) (d : Nat)
    (nm : ValueMap) (h : lookupDef defs d = none) :
    incompatDef defs d nm = false := by
  unfold incompatDef
  rw [h]

theorem incompatDef_some (defs : List (Nat × DefRecord)) (d : Nat)
    (nm : ValueMap) (defn : DefRecord) (h : lookupDef defs d = some defn) :
    incompatDef defs d nm =
      (!defn.valueMap.isEmpty &&
        !(decide (sortedStrItems defn.valueMap = sortedStrItems nm))) := by
  unfold incompatDef
  rw [h]

end Manager

namespace Manager

theorem updGo_cons_ok (cols : List ColRecord) (defs defs₂ : List (Nat × DefRecord))
    (ck : String) (nm : ValueMap) (rest : List (String × ValueMap))
    (hstep : updStep cols defs ck nm = .ok defs₂) :
    updGo cols defs ((ck, nm) :: rest) = updGo cols defs₂ rest := by
  rw [updGo_cons, hstep]

theorem updGo_cons_err (cols : List ColRecord) (defs : List (Nat × DefRecord))
    (ck : String) (nm : ValueMap) (rest : List (String × ValueMap)) (e : String)
    (hstep : updStep cols defs ck nm = .error e) :
    updGo cols defs ((ck, nm) :: rest) = .error e := by
  rw [updGo_cons, hstep]

theorem updCfg_ok (st : DbState) (lm : List (String × ValueMap))
    (defs₁ : List (Nat × DefRecord))
    (h : updGo st.columns st.definitions lm = .ok defs₁) :
    updateDefinitionConfigurations st lm = ({ st with definitions := defs₁ }, none) := by
  unfold updateDefinitionConfigurations
  rw [h]

theorem updCfg_err (st : DbState) (lm : List (String × ValueMap)) (e : String)
    (h : updGo st.columns st.definitions lm = .error e) :
    updateDefinitionConfigurations st lm = (st, some e) := by
  unfold updateDefinitionConfigurations
  rw [h]

theorem updGo_error_of_incompat (lm : List (String × ValueMap))
    (cols : List ColRecord) : ∀ defs : List (Nat × DefRecord),
    (∃ p ∈ lm, incompatAt cols defs p = true) →
    ∃ e, updGo cols defs lm = .error e := by
  induction lm with
  | nil =>
    intro defs hbad
    obtain ⟨p, hp, _⟩ := hbad
    cases hp
  | cons q rest ih =>
    obtain ⟨ck, nm⟩ := q
    intro defs hbad
    cases hstep : updStep cols defs ck nm with
    | error e => exact ⟨e, updGo_cons_err cols defs ck nm rest e hstep⟩
    | ok defs₂ =>
      obtain ⟨p, hp, hbadp⟩ := hbad
      rcases List.mem_cons.mp hp with heq | hprest
      · exfalso
        subst heq
        cases hr : resolvedId cols ck with
        | none =>
          rw [incompatAt_rid_none _ _ _ hr] at hbadp
          cases hbadp
        | some d =>
          rw [incompatAt_rid_some _ _ _ _ hr] at hbadp
          cases hld : lookupDef defs d with
          | none =>
            rw [incompatDef_none _ _ _ hld] at hbadp
            cases hbadp
          | some defn =>
            rw [incompatDef_some _ _ _ _ hld] at hbadp
            rw [Bool.and_eq_true, Bool.not_eq_true', Bool.not_eq_true'] at hbadp
            obtain ⟨hemp, hdec⟩ := hbadp
            rw [updStep_rid_some _ _ _ _ _ hr,
              updApply_def_some _ _ _ _ _ hld,
              if_neg (by simp [hemp]),
              if_neg (of_decide_eq_false hdec)] at hstep
            cases hstep
      · have hbad2 : incompatAt cols defs₂ p = true := by
          cases hr : resolvedId cols p.1 with
          | none =>
            rw [incompatAt_rid_none _ _ _ hr] at hbadp
            cases hbadp
          | some d =>
            rw [incompatAt_rid_some _ _ _ _ hr] at hbadp ⊢
            cases hld : lookupDef defs d with
            | none =>
              rw [incompatDef_none _ _ _ hld] at hbadp
              cases hbadp
            | some defn =>
              rw [incompatDef_some _ _ _ _ hld] at hbadp
              rw [Bool.and_eq_true, Bool.not_eq_true'] at hbadp
              have hnemp : ¬ defn.valueMap.isEmpty = true := by
                simp [hbadp.1]
              have hld2 := updStep_preserves_nonempty cols defs defs₂ ck nm d defn
                hld hnemp hstep
              rw [incompatDef_some _ _ _ _ hld2, Bool.and_eq_true,
                Bool.not_eq_true']
              exact hbadp
        obtain ⟨e, he⟩ := ih defs₂ ⟨p, hprest, hbad2⟩
        exact ⟨e, by rw [updGo_cons_ok cols defs defs₂ ck nm rest hstep]; exact he⟩

end Manager

namespace Manager

theorem incompatDef_congr (defs defs' : List (Nat × DefRecord)) (d : Nat)
    (nm : ValueMap) (h : lookupDef defs' d = lookupDef defs d) :
    incompatDef defs' d nm = incompatDef defs d nm := by
  unfold incompatDef
  rw [h]

theorem updGo_ok_of_compat (lm : List (String × ValueMap))
    (cols : List ColRecord) : ∀ defs : List (Nat × DefRecord),
    (lm.filterMap fun p => resolvedId cols p.1).Nodup →
    (∀ p ∈ lm, incompatAt cols defs p = false) →
    ∃ defs₁, updGo cols defs lm = .ok defs₁ := by
  induction lm with
  | nil => exact fun defs _ _ => ⟨defs, rfl⟩
  | cons q rest ih =>
    obtain ⟨ck, nm⟩ := q
    intro defs hnd hgood
    have hgq := hgood (ck, nm) (List.mem_cons_self _ _)
    cases hr : resolvedId cols ck with
    | none =>
      have hnd2 : (rest.filterMap fun p => resolvedId cols p.1).Nodup := by
        rw [List.filterMap_cons] at hnd
        simpa [hr] using hnd
      obtain ⟨defs₁, hgo⟩ := ih defs hnd2
        (fun p hp => hgood p (List.mem_cons_of_mem _ hp))
      exact ⟨defs₁, by
        rw [updGo_cons_ok cols defs defs ck nm rest (updStep_rid_none _ _ _ _ hr)]
        exact hgo⟩
    | some d =>
      have hnd' : d ∉ (rest.filterMap fun p => resolvedId cols p.1) ∧
          (rest.filterMap fun p => resolvedId cols p.1).Nodup := by
        rw [List.filterMap_cons] at hnd
        simp only [hr] at hnd
        exact List.nodup_cons.mp hnd
      cases hld : lookupDef defs d with
      | none =>
        obtain ⟨defs₁, hgo⟩ := ih defs hnd'.2
          (fun p hp => hgood p (List.mem_cons_of_mem _ hp))
        refine ⟨defs₁, ?_⟩
        rw [updGo_cons_ok cols defs defs ck nm rest ?_]
        · exact hgo
        · rw [updStep_rid_some _ _ _ _ _ hr]
          exact updApply_def_none _ _ _ _ hld
      | some defn =>
        rw [incompatAt_rid_some _ _ _ _ hr, incompatDef_some _ _ _ _ hld] at hgq
        by_cases hemp : defn.valueMap.isEmpty
        · have hstep : updStep cols defs ck nm =
              .ok (setDefMap defs d (jsonKeys nm)) := by
            rw [updStep_rid_some _ _ _ _ _ hr,
              updApply_def_some _ _ _ _ _ hld, if_pos hemp]
          have hgood2 : ∀ p ∈ rest,
              incompatAt cols (setDefMap defs d (jsonKeys nm)) p = false := by
            intro p hp
            cases hr2 : resolvedId cols p.1 with
            | none => exact incompatAt_rid_none _ _ _ hr2
            | some d2 =>
              have hd2 : d2 ≠ d := by
                intro he
                subst he
                exact hnd'.1 (List.mem_filterMap.mpr ⟨p, hp, hr2⟩)
              rw [incompatAt_rid_some _ _ _ _ hr2,
                incompatDef_congr _ _ _ _ (lookupDef_setDefMap_ne defs d d2 _ hd2)]
              have hgp := hgood p (List.mem_cons_of_mem _ hp)
              rw [incompatAt_rid_some _ _ _ _ hr2] at hgp
              exact hgp
          obtain ⟨defs₁, hgo⟩ := ih (setDefMap defs d (jsonKeys nm)) hnd'.2 hgood2
          exact ⟨defs₁, by
            rw [updGo_cons_ok cols defs _ ck nm rest hstep]; exact hgo⟩
        · have hsort : sortedStrItems defn.valueMap = sortedStrItems nm := by
            have hempf : defn.valueMap.isEmpty = false := Bool.eq_false_iff.mpr hemp
            simpa [hempf] using hgq
          have hstep : updStep cols defs ck nm = .ok defs := by
            rw [updStep_rid_some _ _ _ _ _ hr,
              updApply_def_some _ _ _ _ _ hld, if_neg hemp, if_pos hsort]
          obtain ⟨defs₁, hgo⟩ := ih defs hnd'.2
            (fun p hp => hgood p (List.mem_cons_of_mem _ hp))
          exact ⟨defs₁, by
            rw [updGo_cons_ok cols defs defs ck nm rest hstep]; exact hgo⟩

end Manager

namespace Manager

theorem updGo_agree (lm : List (String × ValueMap)) (cols : List ColRecord) :
    ∀ defs defs₁ : List (Nat × DefRecord),
    (∀ p ∈ lm, p.2 ≠ ([] : ValueMap)) →
    updGo cols defs lm = .ok defs₁ →
    ∀ p ∈ lm, ∀ d, resolvedId cols p.1 = some d →
      lookupDef defs₁ d = none ∨
      ∃ defn₁, lookupDef defs₁ d = some defn₁ ∧
        ¬ defn₁.valueMap.isEmpty = true ∧
        sortedStrItems defn₁.valueMap = sortedStrItems p.2 := by
  induction lm with
  | nil =>
    intro defs defs₁ _ _ p hp
    cases hp
  | cons q rest ih =>
    obtain ⟨ck, nm⟩ := q
    intro defs defs₁ hne hgo p hp d hr
    cases hstep : updStep cols defs ck nm with
    | error e =>
      rw [updGo_cons_err cols defs ck nm rest e hstep] at hgo
      cases hgo
    | ok defs₂ =>
      rw [updGo_cons_ok cols defs defs₂ ck nm rest hstep] at hgo
      rcases List.mem_cons.mp hp with heq | hprest
      · subst heq
        rw [updStep_rid_some _ _ _ _ _ hr] at hstep
        cases hld : lookupDef defs d with
        | none =>
          rw [updApply_def_none _ _ _ _ hld] at hstep
          injection hstep with h
          subst h
          exact Or.inl (updGo_preserves_none rest cols _ defs₁ d hld hgo)
        | some defn =>
          rw [updApply_def_some _ _ _ _ _ hld] at hstep
          by_cases hemp : defn.valueMap.isEmpty
          · rw [if_pos hemp] at hstep
            injection hstep with h
            subst h
            have hset := lookupDef_setDefMap_self defs d (jsonKeys nm) defn hld
            have hnm : nm ≠ ([] : ValueMap) := hne (ck, nm) (List.mem_cons_self _ _)
            have hjne : jsonKeys nm ≠ [] := jsonKeys_ne_nil nm hnm
            have hnemp :
                ¬ (DefRecord.mk defn.name (jsonKeys nm)).valueMap.isEmpty = true := by
              simpa [List.isEmpty_iff] using hjne
            have hfin := updGo_preserves_nonempty rest cols _ defs₁ d _ hset hnemp hgo
            exact Or.inr ⟨_, hfin, hnemp, sortedStrItems_jsonKeys nm⟩
          · rw [if_neg hemp] at hstep
            by_cases hsort : sortedStrItems defn.valueMap = sortedStrItems nm
            · rw [if_pos hsort] at hstep
              injection hstep with h
              subst h
              have hfin := updGo_preserves_nonempty rest cols _ defs₁ d defn
                hld hemp hgo
              exact Or.inr ⟨defn, hfin, hemp, hsort⟩
            · rw [if_neg hsort] at hstep
              cases hstep
      · exact ih defs₂ defs₁ (fun p2 hp2 => hne p2 (List.mem_cons_of_mem _ hp2))
          hgo p hprest d hr

theorem updGo_replay (lm : List (String × ValueMap)) (cols : List ColRecord) :
    ∀ defs₁ : List (Nat × DefRecord),
    (∀ p ∈ lm, ∀ d, resolvedId cols p.1 = some d →
      lookupDef defs₁ d = none ∨
      ∃ defn₁, lookupDef defs₁ d = some defn₁ ∧
        ¬ defn₁.valueMap.isEmpty = true ∧
        sortedStrItems defn₁.valueMap = sortedStrItems p.2) →
    updGo cols defs₁ lm = .ok defs₁ := by
  induction lm with
  | nil => exact fun defs₁ _ => rfl
  | cons q rest ih =>
    obtain ⟨ck, nm⟩ := q
    intro defs₁ hfacts
    have hstep : updStep cols defs₁ ck nm = .ok defs₁ := by
      cases hr : resolvedId cols ck with
      | none => exact updStep_rid_none _ _ _ _ hr
      | some d =>
        rw [updStep_rid_some _ _ _ _ _ hr]
        rcases hfacts (ck, nm) (List.mem_cons_self _ _) d hr with
          hnone | ⟨defn₁, hld, hnemp, hsort⟩
        · exact updApply_def_none _ _ _ _ hnone
        · rw [updApply_def_some _ _ _ _ _ hld, if_neg hnemp, if_pos hsort]
    rw [updGo_cons_ok cols defs₁ defs₁ ck nm rest hstep]
    exact ih defs₁ fun p hp => hfacts p (List.mem_cons_of_mem _ hp)

end Manager

open Manager in
/-- C2 (amended): value-map learning is idempotent for genuinely populated
learned maps: when a call of `update_definition_configurations` succeeds,
calling it again with the same non-empty learned maps is a no-op that raises
no error and leaves the committed definitions unchanged. -/
theorem C2_learning_idempotent (st st' : DbState) (lm : List (String × ValueMap))
    (hne : ∀ p ∈ lm, p.2 ≠ ([] : ValueMap))
    (hok : updateDefinitionConfigurations st lm = (st', none)) :
    updateDefinitionConfigurations st' lm = (st', none) := by
  cases hgo : updGo st.columns st.definitions lm with
  | error e =>
    rw [updCfg_err st lm e hgo] at hok
    exact absurd (congrArg Prod.snd hok) (by simp)
  | ok defs₁ =>
    rw [updCfg_ok st lm defs₁ hgo] at hok
    have hst' : st' = { st with definitions := defs₁ } :=
      (congrArg Prod.fst hok).symm
    subst hst'
    have hfacts := updGo_agree lm st.columns st.definitions defs₁ hne hgo
    have hreplay := updGo_replay lm st.columns defs₁ hfacts
    rw [updCfg_ok { st with definitions := defs₁ } lm defs₁ hreplay]

open Manager in
/-- C3 (amended): the incompatibility ValueError is raised whenever some
column in the learned maps has an assigned definition whose saved value map
is populated and differs, stringified and order-independently, from the
newly learned map; on any raise the committed state is unchanged (the commit
runs only after the loop); and when no two learned columns share a resolved
definition the condition is also necessary (with shared definitions an
earlier staging can trigger the error even though every saved map was
empty). -/
theorem C3_incompatible_value_maps (st : DbState) (lm : List (String × ValueMap)) :
    (savedIncompatible st lm = true →
      (updateDefinitionConfigurations st lm).2.isSome = true) ∧
    (∀ e, (updateDefinitionConfigurations st lm).2 = some e →
      (updateDefinitionConfigurations st lm).1 = st) ∧
    ((lm.filterMap fun p => resolvedId st.columns p.1).Nodup →
      savedIncompatible st lm = false →
      (updateDefinitionConfigurations st lm).2 = none) := by
  cases hgo : updGo st.columns st.definitions lm with
  | ok defs₁ =>
    rw [updCfg_ok st lm defs₁ hgo]
    refine ⟨?_, ?_, fun _ _ => rfl⟩
    · intro hbad
      obtain ⟨p, hp, hpa⟩ := List.any_eq_true.mp hbad
      obtain ⟨e, he⟩ :=
        updGo_error_of_incompat lm st.columns st.definitions ⟨p, hp, hpa⟩
      rw [hgo] at he
      cases he
    · intro e he
      simp at he
  | error e0 =>
    rw [updCfg_err st lm e0 hgo]
    refine ⟨fun _ => rfl, fun e _ => rfl, ?_⟩
    intro hnd hgood
    have hcompat : ∀ p ∈ lm, incompatAt st.columns st.definitions p = false := by
      intro p hp
      cases hpa : incompatAt st.columns st.definitions p with
      | false => rfl
      | true =>
        exfalso
        have hany : savedIncompatible st lm = true :=
          List.any_eq_true.mpr ⟨p, hp, hpa⟩
        rw [hgood] at hany
        cases hany
    obtain ⟨defs₁, hok2⟩ :=
      updGo_ok_of_compat lm st.columns st.definitions hnd hcompat
    rw [hgo] at hok2
    cases hok2

/-- The shared-definition database state of the C3 counterexample. -/
def ceState : Manager.DbState :=
  { definitions := [(1, { name := "shared", valueMap := [] })],
    columns := [{ columnKey := "c1", defId := some 1 },
                { columnKey := "c2", defId := some 1 }] }

/-- The learned maps of the C3 counterexample: the two columns share the
definition and learn different maps. -/
def ceLearned : List (String × Manager.ValueMap) :=
  [("c1", [(Manager.JKey.jnum 0, "A")]), ("c2", [(Manager.JKey.jnum 0, "B")])]

/-- Counterexample to C3 as stated: no column has an assigned definition with
a populated saved value map (both saved maps are empty), yet the call raises
the incompatibility ValueError, because staging for the first column fills
the shared definition before the second column is compared. -/
theorem C3_counterexample :
    Manager.savedIncompatible ceState ceLearned = false ∧
    (Manager.updateDefinitionConfigurations ceState ceLearned).2.isSome = true := by
  decide

/-- A compatible single-column state for the manager witnesses. -/
def wState : Manager.DbState :=
  { definitions := [(1, { name := "d", valueMap := [] })],
    columns := [{ columnKey := "c1", defId := some 1 }] }

/-- The learned maps for the manager witnesses. -/
def wLearned : List (String × Manager.ValueMap) :=
  [("c1", [(Manager.JKey.jnum 0, "X")])]

/-- The state after the first successful learning call on `wState`. -/
def wStateAfter : Manager.DbState :=
  { definitions := [(1, { name := "d", valueMap := [(Manager.JKey.jstr "0", "X")] })],
    columns := [{ columnKey := "c1", defId := some 1 }] }

/-- Witness for C3 on a concrete compatible state: no error is raised. -/
theorem C3_incompatible_value_maps_witness :
    (Manager.updateDefinitionConfigurations wState wLearned).2 = none :=
  (C3_incompatible_value_maps wState wLearned).2.2 (by decide) (by decide)

/-- Witness for C2: the second call on the already-populated state is a
no-op. -/
theorem C2_learning_idempotent_witness :
    Manager.updateDefinitionConfigurations wStateAfter wLearned =
      (wStateAfter, none) :=
  C2_learning_idempotent wState wStateAfter wLearned (by decide) (by decide)

/-! ## Workspace lemmas and claim theorems C5, C6 -/

deriving instance DecidableEq for Except

theorem tmp_ne (s : String) : s ++ ".tmp" ≠ s := by
  intro h
  have hlen := congrArg String.length h
  rw [String.length_append] at hlen
  have h4 : (".tmp").length = 4 := rfl
  omega

namespace Workspace

theorem saveFile_noFail_eq (fs : FileSys) (ip uid pc fn : String)
    (content : List Nat) (ws : String)
    (hws : getWorkspaceRoot ip uid pc = .ok ws) :
    saveFile fs ip uid pc fn content .noFail =
      (setFile (removeFile
          (setFile fs (joinPath ws (secureFilename fn) ++ ".tmp") content)
          (joinPath ws (secureFilename fn) ++ ".tmp"))
        (joinPath ws (secureFilename fn)) content,
       .ok { status := "success", path := joinPath ws (secureFilename fn),
             checksum := calculateChecksum
               (setFile (removeFile
                   (setFile fs (joinPath ws (secureFilename fn) ++ ".tmp") content)
                   (joinPath ws (secureFilename fn) ++ ".tmp"))
                 (joinPath ws (secureFilename fn)) content)
               (joinPath ws (secureFilename fn)) }) := by
  unfold saveFile
  rw [hws]

theorem saveFile_atWrite_eq (fs : FileSys) (ip uid pc fn : String)
    (content : List Nat) (w : Option (List Nat)) (ws : String)
    (hws : getWorkspaceRoot ip uid pc = .ok ws) :
    saveFile fs ip uid pc fn content (.atWrite w) =
      (let fs₁ := match w with
        | some bytes => setFile fs (joinPath ws (secureFilename fn) ++ ".tmp") bytes
        | none => fs
       if (getFile fs₁ (joinPath ws (secureFilename fn) ++ ".tmp")).isSome then
         removeFile fs₁ (joinPath ws (secureFilename fn) ++ ".tmp")
       else fs₁, .error "write failed") := by
  unfold saveFile
  rw [hws]

theorem saveFile_atReplace_eq (fs : FileSys) (ip uid pc fn : String)
    (content : List Nat) (ws : String)
    (hws : getWorkspaceRoot ip uid pc = .ok ws) :
    saveFile fs ip uid pc fn content .atReplace =
      (let fs₁ := setFile fs (joinPath ws (secureFilename fn) ++ ".tmp") content
       if (getFile fs₁ (joinPath ws (secureFilename fn) ++ ".tmp")).isSome then
         removeFile fs₁ (joinPath ws (secureFilename fn) ++ ".tmp")
       else fs₁, .error "replace failed") := by
  unfold saveFile
  rw [hws]

theorem saveFile_atRead_eq (fs : FileSys) (ip uid pc fn : String)
    (content : List Nat) (ws : String)
    (hws : getWorkspaceRoot ip uid pc = .ok ws) :
    saveFile fs ip uid pc fn content .atRead =
      (let fs₂ := setFile (removeFile
          (setFile fs (joinPath ws (secureFilename fn) ++ ".tmp") content)
          (joinPath ws (secureFilename fn) ++ ".tmp"))
        (joinPath ws (secureFilename fn)) content
       if (getFile fs₂ (joinPath ws (secureFilename fn) ++ ".tmp")).isSome then
         removeFile fs₂ (joinPath ws (secureFilename fn) ++ ".tmp")
       else fs₂, .error "read failed") := by
  unfold saveFile
  rw [hws]

end Workspace

open Workspace in
/-- C5 (amended): `save_file` writes to a temporary `<target>.tmp` file and
installs it with a single atomic `os.replace`; on success it returns status
success, the target path, and a checksum equal to the SHA-256 hex digest of
the bytes now at the target path; if the write or the replace raises, the
temporary file is removed, the exception is re-raised and a previously
existing target file is unchanged; if the checksum read after the replace
raises, the exception is re-raised and no temporary file remains, but the
target already holds the newly installed content rather than the previous
one. -/
theorem C5_save_file_semantics (fs : Workspace.FileSys) (ip uid pc fn : String)
    (content : List Nat) (ws : String)
    (hws : Workspace.getWorkspaceRoot ip uid pc = .ok ws) :
    (∃ fsF r, saveFile fs ip uid pc fn content .noFail = (fsF, .ok r) ∧
      r.status = "success" ∧
      r.path = joinPath ws (secureFilename fn) ∧
      r.checksum =
        sha256Hex ((getFile fsF (joinPath ws (secureFilename fn))).getD []) ∧
      getFile fsF (joinPath ws (secureFilename fn)) = some content ∧
      getFile fsF (joinPath ws (secureFilename fn) ++ ".tmp") = none) ∧
    (∀ w, ∃ fsF, saveFile fs ip uid pc fn content (.atWrite w) =
        (fsF, .error "write failed") ∧
      getFile fsF (joinPath ws (secureFilename fn) ++ ".tmp") = none ∧
      getFile fsF (joinPath ws (secureFilename fn)) =
        getFile fs (joinPath ws (secureFilename fn))) ∧
    (∃ fsF, saveFile fs ip uid pc fn content .atReplace =
        (fsF, .error "replace failed") ∧
      getFile fsF (joinPath ws (secureFilename fn) ++ ".tmp") = none ∧
      getFile fsF (joinPath ws (secureFilename fn)) =
        getFile fs (joinPath ws (secureFilename fn))) ∧
    (∃ fsF, saveFile fs ip uid pc fn content .atRead =
        (fsF, .error "read failed") ∧
      getFile fsF (joinPath ws (secureFilename fn) ++ ".tmp") = none ∧
      getFile fsF (joinPath ws (secureFilename fn)) = some content) := by
  have htne : joinPath ws (secureFilename fn) ++ ".tmp" ≠
      joinPath ws (secureFilename fn) := tmp_ne _
  have htne' : joinPath ws (secureFilename fn) ≠
      joinPath ws (secureFilename fn) ++ ".tmp" := fun h => htne h.symm
  refine ⟨?_, ?_, ?_, ?_⟩
  · -- success
    refine ⟨_, _, saveFile_noFail_eq fs ip uid pc fn content ws hws,
      rfl, rfl, rfl, ?_, ?_⟩
    · exact alistGet_dictInsert_self _ _ _
    · rw [show getFile (setFile (removeFile
          (setFile fs (joinPath ws (secureFilename fn) ++ ".tmp") content)
          (joinPath ws (secureFilename fn) ++ ".tmp"))
          (joinPath ws (secureFilename fn)) content)
          (joinPath ws (secureFilename fn) ++ ".tmp") =
        getFile (removeFile
          (setFile fs (joinPath ws (secureFilename fn) ++ ".tmp") content)
          (joinPath ws (secureFilename fn) ++ ".tmp"))
          (joinPath ws (secureFilename fn) ++ ".tmp") from
        alistGet_dictInsert_ne _ _ _ _ htne]
      exact alistGet_filter_self _ _
  · -- write failure
    intro w
    cases w with
    | some b =>
      have hcond : (getFile (setFile fs
          (joinPath ws (secureFilename fn) ++ ".tmp") b)
          (joinPath ws (secureFilename fn) ++ ".tmp")).isSome = true := by
        rw [show getFile (setFile fs (joinPath ws (secureFilename fn) ++ ".tmp") b)
            (joinPath ws (secureFilename fn) ++ ".tmp") = some b from
          alistGet_dictInsert_self _ _ _]
        rfl
      refine ⟨removeFile (setFile fs (joinPath ws (secureFilename fn) ++ ".tmp") b)
        (joinPath ws (secureFilename fn) ++ ".tmp"), ?_, ?_, ?_⟩
      · rw [saveFile_atWrite_eq fs ip uid pc fn content (some b) ws hws]
        show (if (getFile (setFile fs (joinPath ws (secureFilename fn) ++ ".tmp") b)
            (joinPath ws (secureFilename fn) ++ ".tmp")).isSome then _ else _,
            Except.error "write failed") = _
        rw [if_pos hcond]
      · exact alistGet_filter_self _ _
      · rw [show getFile (removeFile
            (setFile fs (joinPath ws (secureFilename fn) ++ ".tmp") b)
            (joinPath ws (secureFilename fn) ++ ".tmp"))
            (joinPath ws (secureFilename fn)) =
          getFile (setFile fs (joinPath ws (secureFilename fn) ++ ".tmp") b)
            (joinPath ws (secureFilename fn)) from
          alistGet_filter_other _ _ _ htne]
        exact alistGet_dictInsert_ne _ _ _ _ htne'
    | none =>
      by_cases hex : (getFile fs (joinPath ws (secureFilename fn) ++ ".tmp")).isSome
      · refine ⟨removeFile fs (joinPath ws (secureFilename fn) ++ ".tmp"), ?_, ?_, ?_⟩
        · rw [saveFile_atWrite_eq fs ip uid pc fn content none ws hws]
          show (if (getFile fs (joinPath ws (secureFilename fn) ++ ".tmp")).isSome
              then _ else _, Except.error "write failed") = _
          rw [if_pos hex]
        · exact alistGet_filter_self _ _
        · exact alistGet_filter_other _ _ _ htne
      · refine ⟨fs, ?_, ?_, rfl⟩
        · rw [saveFile_atWrite_eq fs ip uid pc fn content none ws hws]
          show (if (getFile fs (joinPath ws (secureFilename fn) ++ ".tmp")).isSome
              then _ else _, Except.error "write failed") = _
          rw [if_neg hex]
        · exact Option.not_isSome_iff_eq_none.mp hex
  · -- replace failure
    have hcond : (getFile (setFile fs
        (joinPath ws (secureFilename fn) ++ ".tmp") content)
        (joinPath ws (secureFilename fn) ++ ".tmp")).isSome = true := by
      rw [show getFile (setFile fs (joinPath ws (secureFilename fn) ++ ".tmp") content)
          (joinPath ws (secureFilename fn) ++ ".tmp") = some content from
        alistGet_dictInsert_self _ _ _]
      rfl
    refine ⟨removeFile (setFile fs (joinPath ws (secureFilename fn) ++ ".tmp") content)
      (joinPath ws (secureFilename fn) ++ ".tmp"), ?_, ?_, ?_⟩
    · rw [saveFile_atReplace_eq fs ip uid pc fn content ws hws]
      show (if (getFile (setFile fs (joinPath ws (secureFilename fn) ++ ".tmp") content)
          (joinPath ws (secureFilename fn) ++ ".tmp")).isSome then _ else _,
          Except.error "replace failed") = _
      rw [if_pos hcond]
    · exact alistGet_filter_self _ _
    · rw [show getFile (removeFile
          (setFile fs (joinPath ws (secureFilename fn) ++ ".tmp") content)
          (joinPath ws (secureFilename fn) ++ ".tmp"))
          (joinPath ws (secureFilename fn)) =
        getFile (setFile fs (joinPath ws (secureFilename fn) ++ ".tmp") content)
          (joinPath ws (secureFilename fn)) from
        alistGet_filter_other _ _ _ htne]
      exact alistGet_dictInsert_ne _ _ _ _ htne'
  · -- read failure after the replace
    have hnone : getFile (setFile (removeFile
        (setFile fs (joinPath ws (secureFilename fn) ++ ".tmp") content)
        (joinPath ws (secureFilename fn) ++ ".tmp"))
        (joinPath ws (secureFilename fn)) content)
        (joinPath ws (secureFilename fn) ++ ".tmp") = none := by
      rw [show getFile (setFile (removeFile
          (setFile fs (joinPath ws (secureFilename fn) ++ ".tmp") content)
          (joinPath ws (secureFilename fn) ++ ".tmp"))
          (joinPath ws (secureFilename fn)) content)
          (joinPath ws (secureFilename fn) ++ ".tmp") =
        getFile (removeFile
          (setFile fs (joinPath ws (secureFilename fn) ++ ".tmp") content)
          (joinPath ws (secureFilename fn) ++ ".tmp"))
          (joinPath ws (secureFilename fn) ++ ".tmp") from
        alistGet_dictInsert_ne _ _ _ _ htne]
      exact alistGet_filter_self _ _
    refine ⟨setFile (removeFile
        (setFile fs (joinPath ws (secureFilename fn) ++ ".tmp") content)
        (joinPath ws (secureFilename fn) ++ ".tmp"))
        (joinPath ws (secureFilename fn)) content, ?_, ?_, ?_⟩
    · rw [saveFile_atRead_eq fs ip uid pc fn content ws hws]
      show (if (getFile (setFile (removeFile
          (setFile fs (joinPath ws (secureFilename fn) ++ ".tmp") content)
          (joinPath ws (secureFilename fn) ++ ".tmp"))
          (joinPath ws (secureFilename fn)) content)
          (joinPath ws (secureFilename fn) ++ ".tmp")).isSome then _ else _,
          Except.error "read failed") = _
      rw [if_neg (by rw [hnone]; simp)]
    · exact hnone
    · exact alistGet_dictInsert_self _ _ _

/-- The file system of the C5 counterexample and witness: the target file
already exists with old content. -/
def ceFs : Workspace.FileSys :=
  [("/srv/instance/temp_workspaces/7/proj/data.csv", [1, 2, 3])]

/-- Counterexample to C5 as stated: when the checksum read raises — a step
after the atomic replace — the exception is re-raised but the previously
existing file at the target path is not left unchanged: it holds the newly
written bytes. -/
theorem C5_counterexample :
    (Workspace.saveFile ceFs "/srv/instance" "7" "proj" "data.csv" [9, 9]
      Workspace.FailPoint.atRead).2 = Except.error "read failed" ∧
    Workspace.getFile
      (Workspace.saveFile ceFs "/srv/instance" "7" "proj" "data.csv" [9, 9]
        Workspace.FailPoint.atRead).1
      "/srv/instance/temp_workspaces/7/proj/data.csv" = some [9, 9] ∧
    Workspace.getFile ceFs "/srv/instance/temp_workspaces/7/proj/data.csv" =
      some [1, 2, 3] := by
  decide

open Workspace in
/-- Witness for C5 on a concrete workspace: the success case returns the
checksum of the installed bytes. -/
theorem C5_save_file_semantics_witness :
    ∃ fsF r, saveFile ceFs "/srv/instance" "7" "proj" "data.csv" [9, 9]
        .noFail = (fsF, .ok r) ∧
      r.status = "success" ∧
      r.path = joinPath "/srv/instance/temp_workspaces/7/proj"
        (secureFilename "data.csv") ∧
      r.checksum = sha256Hex ((getFile fsF
        (joinPath "/srv/instance/temp_workspaces/7/proj"
          (secureFilename "data.csv"))).getD []) ∧
      getFile fsF (joinPath "/srv/instance/temp_workspaces/7/proj"
        (secureFilename "data.csv")) = some [9, 9] ∧
      getFile fsF (joinPath "/srv/instance/temp_workspaces/7/proj"
        (secureFilename "data.csv") ++ ".tmp") = none :=
  (C5_save_file_semantics ceFs "/srv/instance" "7" "proj" "data.csv" [9, 9]
    "/srv/instance/temp_workspaces/7/proj" (by decide)).1

open Workspace in
/-- C6: evaluating `_get_workspace_root` at a crafted user id shows the
`startswith` guard passes although the resolved path escapes the
`temp_workspaces` base directory (the code contradicts its own Path
Traversal Guard comment: the check lacks a trailing separator). -/
theorem C6_path_guard_bypass :
    getWorkspaceRoot "/srv/instance" "../temp_workspacesevil" "data" =
      Except.ok "/srv/instance/temp_workspacesevil/data" ∧
    strStarts "/srv/instance/temp_workspacesevil/data"
      "/srv/instance/temp_workspaces" = true ∧
    strStarts "/srv/instance/temp_workspacesevil/data"
      "/srv/instance/temp_workspaces/" = false ∧
    "/srv/instance/temp_workspacesevil/data" ≠
      "/srv/instance/temp_workspaces" := by
  decide

/-- The shared-definition state of the C2 counterexample. -/
def ce2State : Manager.DbState :=
  { definitions := [(1, { name := "d", valueMap := [] })],
    columns := [{ columnKey := "c1", defId := some 1 },
                { columnKey := "c2", defId := some 1 }] }

/-- The learned maps of the C2 counterexample: an empty learned map and a
populated one for two columns sharing a definition. -/
def ce2Learned : List (String × Manager.ValueMap) :=
  [("c1", []), ("c2", [(Manager.JKey.jnum 0, "A")])]

/-- The state committed by the first call on `ce2State`. -/
def ce2After : Manager.DbState :=
  { definitions :=
      [(1, { name := "d", valueMap := [(Manager.JKey.jstr "0", "A")] })],
    columns := [{ columnKey := "c1", defId := some 1 },
                { columnKey := "c2", defId := some 1 }] }

/-- Counterexample to C2 as stated: with an empty learned map sharing its
definition with a populated one, the first call succeeds and populates the
shared map, but the identical second call raises the incompatibility
ValueError — applying the operation twice does not equal applying it once. -/
theorem C2_counterexample :
    Manager.updateDefinitionConfigurations ce2State ce2Learned =
      (ce2After, none) ∧
    (Manager.updateDefinitionConfigurations ce2After ce2Learned).2.isSome =
      true := by
  decide
